import Mathlib

/-!
# Verification of the effector propagation engine (kernel.js) and id generators

This file gives a shallow embedding of the repository's propagation engine
(the `kernel` source: priority queue with five buckets, shared skew heap for
the `barrier`/`sampler` classes, the step interpreter, the `exec` drain loop
and the `launch` entry point) together with the `stringRefcount` id
generators, and proves the specified properties about them.

Modelling conventions:
* JavaScript dynamic values are modelled by the inductive `Value`
  (distinguishing `null` and `undefined`, as JS does).
* User functions (the `fn` fields of `filter`/`compute`/`run` steps) are
  deep-embedded as `FnE` with evaluator `evalFn`, so that a thrown exception
  is an `Except.error`.  They receive `(stack.value, local.scope, stack)`
  exactly as in the source (`tryRun`).
* Mutable module state (the five queue buckets, the shared heap, the
  `barriers` set, the `alreadyStarted` flag, the ref cells written by `mov`,
  and the `console.error` diagnostic stream) is threaded explicitly as the
  state record `EState`.  The `events` field records the `console.error`
  sink (`Ev.error`) plus a ghost marker `Ev.barrierMat` emitted exactly when
  the barrier branch materialises (pushes) a layer into the queue; the ghost
  marker changes no behaviour and only lets theorems talk about how often a
  barrier id is materialised.
* The ref-cell registry (`stdlib`'s `createRef`/`readRef`, not part of the
  sources under verification) is collapsed to a store `refs` keyed by the
  numeric ref id carried by the step; `readRef` of an absent cell is
  modelled as `undefined`.
* Recursive functions whose JS originals are loops or non-structural
  recursion are written either structurally (the step loop walks the list of
  remaining steps) or with an explicit fuel parameter (`mergeF`, `execLoop`,
  `toD36`); fuel-irrelevance lemmas recover the unfueled equations.
-/

namespace Effector

/-- JS runtime values, distinguishing `null` from `undefined`. -/
inductive Value where
  | null : Value
  | undef : Value
  | bool : Bool → Value
  | int : Int → Value
  | str : String → Value
  | arr : List Value → Value

/-- JS truthiness, used by the `filter` step (`!tryRun(...)`). -/
def jsTruthy : Value → Bool
  | .null => false
  | .undef => false
  | .bool b => b
  | .int n => decide (n ≠ 0)
  | .str s => decide (s ≠ "")
  | .arr _ => true

/-- Names of priority groups (source type `PriorityTag`). -/
inductive PriorityTag where
  | child : PriorityTag
  | pure : PriorityTag
  | barrier : PriorityTag
  | sampler : PriorityTag
  | effect : PriorityTag
deriving DecidableEq, Repr

/-- Numeric priority of a tag; the source `getPriority` switch
(`child ↦ 0, pure ↦ 1, barrier ↦ 2, sampler ↦ 3, effect ↦ 4`; the
`default: -1` branch is unreachable because the enumeration is closed). -/
def getPriority : PriorityTag → Nat
  | .child => 0
  | .pure => 1
  | .barrier => 2
  | .sampler => 3
  | .effect => 4

/-- Deep embedding of the user functions passed to `filter`/`compute`/`run`
steps.  `evalFn` below runs one; `.throwE` models a function that throws. -/
inductive FnE where
  | const : Value → FnE
  | throwE : Value → FnE
  | arg : FnE
  | addInt : Int → FnE
  | gtZero : FnE

/-- Source slots of a `mov` step (source `data.from`); the `value` case
carries the literal (`data.store`) and the `store` case the ref id. -/
inductive MovFrom where
  | stack : MovFrom
  | a : MovFrom
  | b : MovFrom
  | value : Value → MovFrom
  | store : Nat → MovFrom

/-- Destination slots of a `mov` step (source `data.to`). -/
inductive MovTo where
  | stack : MovTo
  | a : MovTo
  | b : MovTo
  | store : Nat → MovTo

/-- The `check` step's `data.type`, with the ref id for `changed`. -/
inductive CheckKind where
  | defined : CheckKind
  | changed : Nat → CheckKind

/-- One step of a node's `seq` (source step objects `{type, data}`). -/
inductive Step where
  | barrier : Nat → PriorityTag → Step
  | mov : MovFrom → MovTo → Step
  | check : CheckKind → Step
  | filter : FnE → Step
  | run : FnE → Step
  | compute : FnE → Step

/-- A graph node: ordered step sequence, child nodes, scope.  The register
table indirection (`graph.reg`) is collapsed: `mov`/`check` steps carry the
ref id directly (the ref registry lives in `stdlib`, outside these
sources). -/
inductive Graph where
  | mk : List Step → List Graph → Value → Graph

def Graph.seq : Graph → List Step
  | .mk s _ _ => s

def Graph.next : Graph → List Graph
  | .mk _ n _ => n

def Graph.scope : Graph → Value
  | .mk _ _ sc => sc

/-- Call stack frame (source type `Stack`): propagated value, two scratch
slots, parent frame, owning node. -/
inductive Stack where
  | mk : Value → Value → Value → Option Stack → Graph → Stack

def Stack.value : Stack → Value
  | .mk v _ _ _ _ => v

def Stack.a : Stack → Value
  | .mk _ x _ _ _ => x

def Stack.b : Stack → Value
  | .mk _ _ x _ _ => x

def Stack.parent : Stack → Option Stack
  | .mk _ _ _ p _ => p

def Stack.node : Stack → Graph
  | .mk _ _ _ _ n => n

def Stack.withValue (st : Stack) (v : Value) : Stack :=
  match st with
  | .mk _ x y p n => .mk v x y p n

def Stack.withA (st : Stack) (v : Value) : Stack :=
  match st with
  | .mk w _ y p n => .mk w v y p n

def Stack.withB (st : Stack) (v : Value) : Stack :=
  match st with
  | .mk w x _ p n => .mk w x v p n

/-- A queue entry (source type `Layer`). -/
structure Layer where
  idx : Nat
  stack : Stack
  type : PriorityTag
  id : Nat

/-- One of the five FIFO buckets (source type `QueueBucket`); the
first/last/right linked-list pointers are represented by the list `items`
(head = `first`, appending = linking at `last`).  For the two heap-backed
buckets `items` stays empty and only `size` is used, as in the source. -/
structure QueueBucket where
  items : List Layer
  size : Nat

/-- The shared skew heap (source type `Heap`, with `0`/null modelled by
`nil`). -/
inductive Heap where
  | nil : Heap
  | node : Layer → Heap → Heap → Heap

def Heap.size : Heap → Nat
  | .nil => 0
  | .node _ l r => l.size + r.size + 1

def Heap.toList : Heap → List Layer
  | .nil => []
  | .node v l r => v :: (l.toList ++ r.toList)

/-- The swap condition of the source `merge`: the roles of `a` and `b` are
exchanged iff they have the same priority type and `a` was created later
(`a.v.id > b.v.id`), or the types differ and `a` is a `sampler`. -/
def swapCond (a b : Layer) : Prop :=
  (a.type = b.type ∧ b.id < a.id) ∨ (a.type ≠ b.type ∧ a.type = .sampler)

instance (a b : Layer) : Decidable (swapCond a b) := by
  unfold swapCond; infer_instance

/-- Skew-heap meld, with explicit fuel so that it is structurally recursive
(the source recursion terminates because the total size shrinks; `mergeF`
is only ever used with fuel at least the total size).  After the optional
swap the source sets `ret = merge(a.r, b); a.r = a.l; a.l = ret`, i.e. the
kept root's children become `(merge oldRight other, oldLeft)`. -/
def mergeF : Nat → Heap → Heap → Heap
  | _, .nil, b => b
  | _, a, .nil => a
  | 0, a, _ => a
  | k + 1, .node va la ra, .node vb lb rb =>
    if swapCond va vb then
      .node vb (mergeF k rb (.node va la ra)) lb
    else
      .node va (mergeF k ra (.node vb lb rb)) la

/-- Skew-heap meld (source `merge`). -/
def Heap.merge (a b : Heap) : Heap :=
  mergeF (a.size + b.size) a b

@[simp] theorem mergeF_nil_left : ∀ (k : Nat) (b : Heap), mergeF k .nil b = b := by
  intro k b
  cases k <;> cases b <;> rfl

@[simp] theorem mergeF_nil_right : ∀ (k : Nat) (a : Heap), mergeF k a .nil = a := by
  intro k a
  cases k <;> cases a <;> rfl

/-- Fuel irrelevance for `mergeF`: any fuel at least the total size gives
the same result. -/
theorem mergeF_congr :
    ∀ (k k' : Nat) (a b : Heap), a.size + b.size ≤ k → a.size + b.size ≤ k' →
      mergeF k a b = mergeF k' a b := by
  intro k
  induction k with
  | zero =>
    intro k' a b hk _
    match a, b with
    | .nil, b => simp
    | .node va la ra, _ => simp [Heap.size] at hk
  | succ k ih =>
    intro k' a b hk hk'
    match a, b with
    | .nil, b => simp
    | .node va la ra, .nil => simp
    | .node va la ra, .node vb lb rb =>
      match k' with
      | 0 => simp [Heap.size] at hk'
      | k' + 1 =>
        simp only [mergeF]
        have h1 : ra.size + (Heap.node vb lb rb).size ≤ k := by
          simp [Heap.size] at hk ⊢; omega
        have h1' : ra.size + (Heap.node vb lb rb).size ≤ k' := by
          simp [Heap.size] at hk' ⊢; omega
        have h2 : rb.size + (Heap.node va la ra).size ≤ k := by
          simp [Heap.size] at hk ⊢; omega
        have h2' : rb.size + (Heap.node va la ra).size ≤ k' := by
          simp [Heap.size] at hk' ⊢; omega
        by_cases hsw : swapCond va vb
        · simp only [if_pos hsw]
          rw [ih k' rb (.node va la ra) h2 h2']
        · simp only [if_neg hsw]
          rw [ih k' ra (.node vb lb rb) h1 h1']

@[simp] theorem merge_nil_left (b : Heap) : Heap.merge .nil b = b := by
  simp [Heap.merge]

@[simp] theorem merge_nil_right (a : Heap) : Heap.merge a .nil = a := by
  simp [Heap.merge]

/-- The defining equation of the source `merge` on two nonempty heaps. -/
theorem merge_node (va vb : Layer) (la ra lb rb : Heap) :
    Heap.merge (.node va la ra) (.node vb lb rb) =
      if swapCond va vb then
        Heap.node vb (Heap.merge rb (.node va la ra)) lb
      else
        Heap.node va (Heap.merge ra (.node vb lb rb)) la := by
  show mergeF ((Heap.node va la ra).size + (Heap.node vb lb rb).size) _ _ = _
  have hsz : (Heap.node va la ra).size + (Heap.node vb lb rb).size =
      (la.size + ra.size + (lb.size + rb.size + 1)) + 1 := by
    simp [Heap.size]; omega
  rw [hsz]
  simp only [mergeF]
  by_cases hsw : swapCond va vb
  · simp only [if_pos hsw]
    rw [mergeF_congr _ (rb.size + (Heap.node va la ra).size) rb (.node va la ra)
      (by simp only [Heap.size]; omega) (le_refl _)]
    rfl
  · simp only [if_neg hsw]
    rw [mergeF_congr _ (ra.size + (Heap.node vb lb rb).size) ra (.node vb lb rb)
      (by simp only [Heap.size]; omega) (le_refl _)]
    rfl

/-- The comparison key realised by `merge`'s swap condition, restricted to
the two heap-backed priority types: `barrier` beats `sampler`, and within a
type the smaller (older) id wins. -/
def leK (a b : Layer) : Prop :=
  (a.type = b.type ∧ a.id ≤ b.id) ∨ (a.type = .barrier ∧ b.type = .sampler)

/-- A layer of one of the two types that live in the shared heap. -/
def HTy (v : Layer) : Prop :=
  v.type = .barrier ∨ v.type = .sampler

/-- Every layer stored in the heap is heap-typed. -/
def Heap.AllHT (h : Heap) : Prop :=
  ∀ x ∈ h.toList, HTy x

/-- The skew-heap order invariant: each root is `leK`-below everything in
its subtrees. -/
def HOrd : Heap → Prop
  | .nil => True
  | .node v l r =>
    (∀ x ∈ l.toList, leK v x) ∧ (∀ x ∈ r.toList, leK v x) ∧ HOrd l ∧ HOrd r

theorem leK_refl (a : Layer) : leK a a := Or.inl ⟨rfl, le_refl _⟩

theorem leK_trans {a b c : Layer} (h1 : leK a b) (h2 : leK b c) : leK a c := by
  rcases h1 with ⟨ht1, hi1⟩ | ⟨ha1, hb1⟩ <;> rcases h2 with ⟨ht2, hi2⟩ | ⟨ha2, hb2⟩
  · exact Or.inl ⟨ht1.trans ht2, hi1.trans hi2⟩
  · exact Or.inr ⟨ht1.trans ha2, hb2⟩
  · exact Or.inr ⟨ha1, ht2 ▸ hb1⟩
  · rw [hb1] at ha2; cases ha2

theorem notSwap_leK {a b : Layer} (ha : HTy a) (hb : HTy b)
    (h : ¬ swapCond a b) : leK a b := by
  unfold swapCond at h
  push_neg at h
  by_cases ht : a.type = b.type
  · exact Or.inl ⟨ht, h.1 ht⟩
  · rcases ha with ha | ha
    · rcases hb with hb | hb
      · exact absurd (ha.trans hb.symm) ht
      · exact Or.inr ⟨ha, hb⟩
    · exact absurd ha (h.2 ht)

theorem swap_leK {a b : Layer} (_ha : HTy a) (hb : HTy b)
    (h : swapCond a b) : leK b a := by
  rcases h with ⟨ht, hi⟩ | ⟨ht, hs⟩
  · exact Or.inl ⟨ht.symm, le_of_lt hi⟩
  · rcases hb with hb | hb
    · exact Or.inr ⟨hb, hs⟩
    · exact absurd (hs.trans hb.symm) ht

theorem AllHT_node {v : Layer} {l r : Heap} :
    (Heap.node v l r).AllHT ↔ HTy v ∧ l.AllHT ∧ r.AllHT := by
  simp only [Heap.AllHT, Heap.toList, List.mem_cons, List.mem_append]
  constructor
  · intro h
    exact ⟨h v (Or.inl rfl), fun x hx => h x (Or.inr (Or.inl hx)),
      fun x hx => h x (Or.inr (Or.inr hx))⟩
  · rintro ⟨hv, hl, hr⟩ x (rfl | hx | hx)
    · exact hv
    · exact hl x hx
    · exact hr x hx

theorem size_merge : ∀ (n : Nat) (a b : Heap), a.size + b.size ≤ n →
    (a.merge b).size = a.size + b.size := by
  intro n
  induction n with
  | zero =>
    intro a b h
    match a, b with
    | .nil, b => simp [Heap.size]
    | .node va la ra, _ => simp [Heap.size] at h
  | succ n ih =>
    intro a b h
    match a, b with
    | .nil, b => simp [Heap.size]
    | .node va la ra, .nil => simp [Heap.size]
    | .node va la ra, .node vb lb rb =>
      rw [merge_node]
      simp only [Heap.size] at h
      by_cases hsw : swapCond va vb
      · rw [if_pos hsw]
        simp only [Heap.size]
        rw [ih rb (.node va la ra) (by simp only [Heap.size]; omega)]
        simp only [Heap.size]; omega
      · rw [if_neg hsw]
        simp only [Heap.size]
        rw [ih ra (.node vb lb rb) (by simp only [Heap.size]; omega)]
        simp only [Heap.size]; omega

theorem mem_merge : ∀ (n : Nat) (a b : Heap) (x : Layer), a.size + b.size ≤ n →
    (x ∈ (a.merge b).toList ↔ x ∈ a.toList ∨ x ∈ b.toList) := by
  intro n
  induction n with
  | zero =>
    intro a b x h
    match a, b with
    | .nil, b => simp [Heap.toList]
    | .node va la ra, _ => simp [Heap.size] at h
  | succ n ih =>
    intro a b x h
    match a, b with
    | .nil, b => simp [Heap.toList]
    | .node va la ra, .nil => simp [Heap.toList]
    | .node va la ra, .node vb lb rb =>
      rw [merge_node]
      simp only [Heap.size] at h
      by_cases hsw : swapCond va vb
      · rw [if_pos hsw]
        simp only [Heap.toList, List.mem_cons, List.mem_append,
          ih rb (.node va la ra) x (by simp only [Heap.size]; omega)]
        tauto
      · rw [if_neg hsw]
        simp only [Heap.toList, List.mem_cons, List.mem_append,
          ih ra (.node vb lb rb) x (by simp only [Heap.size]; omega)]
        tauto

/-- Membership in a merged heap, with the fuel bound discharged. -/
theorem mem_merge' (a b : Heap) (x : Layer) :
    x ∈ (a.merge b).toList ↔ x ∈ a.toList ∨ x ∈ b.toList :=
  mem_merge (a.size + b.size) a b x (le_refl _)

theorem countP_merge : ∀ (n : Nat) (a b : Heap) (p : Layer → Bool),
    a.size + b.size ≤ n →
    (a.merge b).toList.countP p = a.toList.countP p + b.toList.countP p := by
  intro n
  induction n with
  | zero =>
    intro a b p h
    match a, b with
    | .nil, b => simp [Heap.toList]
    | .node va la ra, _ => simp [Heap.size] at h
  | succ n ih =>
    intro a b p h
    match a, b with
    | .nil, b => simp [Heap.toList]
    | .node va la ra, .nil => simp [Heap.toList]
    | .node va la ra, .node vb lb rb =>
      rw [merge_node]
      simp only [Heap.size] at h
      by_cases hsw : swapCond va vb
      · rw [if_pos hsw]
        simp only [Heap.toList, List.countP_cons, List.countP_append,
          ih rb (.node va la ra) p (by simp only [Heap.size]; omega)]
        omega
      · rw [if_neg hsw]
        simp only [Heap.toList, List.countP_cons, List.countP_append,
          ih ra (.node vb lb rb) p (by simp only [Heap.size]; omega)]
        omega

/-- `countP` over a merged heap, with the fuel bound discharged. -/
theorem countP_merge' (a b : Heap) (p : Layer → Bool) :
    (a.merge b).toList.countP p = a.toList.countP p + b.toList.countP p :=
  countP_merge (a.size + b.size) a b p (le_refl _)

theorem AllHT_merge {a b : Heap} (ha : a.AllHT) (hb : b.AllHT) :
    (a.merge b).AllHT := by
  intro x hx
  rcases (mem_merge' a b x).1 hx with h | h
  · exact ha x h
  · exact hb x h

theorem merge_HOrd : ∀ (n : Nat) (a b : Heap), a.size + b.size ≤ n →
    a.AllHT → b.AllHT → HOrd a → HOrd b → HOrd (a.merge b) := by
  intro n
  induction n with
  | zero =>
    intro a b h _ hbt _ hbo
    match a, b with
    | .nil, b => simpa using hbo
    | .node va la ra, _ => simp [Heap.size] at h
  | succ n ih =>
    intro a b h hat hbt hao hbo
    match a, b with
    | .nil, b => simpa using hbo
    | .node va la ra, .nil => simpa using hao
    | .node va la ra, .node vb lb rb =>
      rw [merge_node]
      simp only [Heap.size] at h
      obtain ⟨hva, hla, hra⟩ := AllHT_node.1 hat
      obtain ⟨hvb, hlb, hrb⟩ := AllHT_node.1 hbt
      obtain ⟨haL, haR, haol, haor⟩ := hao
      obtain ⟨hbL, hbR, hbol, hbor⟩ := hbo
      by_cases hsw : swapCond va vb
      · rw [if_pos hsw]
        have hba : leK vb va := swap_leK hva hvb hsw
        refine ⟨?_, hbL, ?_, hbol⟩
        · intro x hx
          rcases (mem_merge' rb (.node va la ra) x).1 hx with hx | hx
          · exact hbR x hx
          · simp only [Heap.toList, List.mem_cons, List.mem_append] at hx
            rcases hx with rfl | hx | hx
            · exact hba
            · exact leK_trans hba (haL x hx)
            · exact leK_trans hba (haR x hx)
        · exact ih rb (.node va la ra) (by simp only [Heap.size]; omega)
            hrb (AllHT_node.2 ⟨hva, hla, hra⟩) hbor ⟨haL, haR, haol, haor⟩
      · rw [if_neg hsw]
        have hab : leK va vb := notSwap_leK hva hvb hsw
        refine ⟨?_, haL, ?_, haol⟩
        · intro x hx
          rcases (mem_merge' ra (.node vb lb rb) x).1 hx with hx | hx
          · exact haR x hx
          · simp only [Heap.toList, List.mem_cons, List.mem_append] at hx
            rcases hx with rfl | hx | hx
            · exact hab
            · exact leK_trans hab (hbL x hx)
            · exact leK_trans hab (hbR x hx)
        · exact ih ra (.node vb lb rb) (by simp only [Heap.size]; omega)
            hra (AllHT_node.2 ⟨hvb, hlb, hrb⟩) haor ⟨hbL, hbR, hbol, hbor⟩

/-- `merge` preserves the heap invariant (fuel bound discharged). -/
theorem merge_HOrd' {a b : Heap} (ha : a.AllHT) (hb : b.AllHT)
    (hoa : HOrd a) (hob : HOrd b) : HOrd (a.merge b) :=
  merge_HOrd (a.size + b.size) a b (le_refl _) ha hb hoa hob

/-- The root of a well-ordered heap is `leK`-minimal. -/
theorem root_le_all {v : Layer} {l r : Heap} (h : HOrd (.node v l r)) :
    ∀ x ∈ (Heap.node v l r).toList, leK v x := by
  obtain ⟨hL, hR, _, _⟩ := h
  intro x hx
  simp only [Heap.toList, List.mem_cons, List.mem_append] at hx
  rcases hx with rfl | hx | hx
  · exact leK_refl x
  · exact hL x hx
  · exact hR x hx

/-- Draining the heap via the source's pop (`value = heap.v; heap =
merge(heap.l, heap.r)`), with fuel. -/
def heapDrain : Nat → Heap → List Layer
  | 0, _ => []
  | _ + 1, .nil => []
  | k + 1, .node v l r => v :: heapDrain k (l.merge r)

theorem heapDrain_subset : ∀ (k : Nat) (h : Heap) (x : Layer),
    x ∈ heapDrain k h → x ∈ h.toList := by
  intro k
  induction k with
  | zero => intro h x hx; simp [heapDrain] at hx
  | succ k ih =>
    intro h x hx
    match h with
    | .nil => simp [heapDrain] at hx
    | .node v l r =>
      simp only [heapDrain, List.mem_cons] at hx
      rcases hx with rfl | hx
      · simp [Heap.toList]
      · have := (mem_merge' l r x).1 (ih _ x hx)
        simp only [Heap.toList, List.mem_cons, List.mem_append]
        tauto

/-- Draining a well-ordered heap of heap-typed layers produces a
`leK`-sorted sequence. -/
theorem heapDrain_sorted : ∀ (k : Nat) (h : Heap), HOrd h → h.AllHT →
    (heapDrain k h).Pairwise leK := by
  intro k
  induction k with
  | zero => intro h _ _; simp [heapDrain]
  | succ k ih =>
    intro h ho ht
    match h with
    | .nil => simp [heapDrain]
    | .node v l r =>
      obtain ⟨hv, hl, hr⟩ := AllHT_node.1 ht
      simp only [heapDrain, List.pairwise_cons]
      constructor
      · intro x hx
        exact root_le_all ho x
          (by
            have := (mem_merge' l r x).1 (heapDrain_subset k _ x hx)
            simp only [Heap.toList, List.mem_cons, List.mem_append]
            tauto)
      · exact ih (l.merge r)
          (merge_HOrd' hl hr ho.2.2.1 ho.2.2.2)
          (AllHT_merge hl hr)

/-- Draining with fuel at least the size reaches every stored layer. -/
theorem heapDrain_complete : ∀ (k : Nat) (h : Heap), h.size ≤ k →
    ∀ x ∈ h.toList, x ∈ heapDrain k h := by
  intro k
  induction k with
  | zero =>
    intro h hk x hx
    match h with
    | .nil => simp [Heap.toList] at hx
    | .node v l r => simp [Heap.size] at hk
  | succ k ih =>
    intro h hk x hx
    match h with
    | .nil => simp [Heap.toList] at hx
    | .node v l r =>
      simp only [Heap.toList, List.mem_cons, List.mem_append] at hx
      simp only [heapDrain, List.mem_cons]
      rcases hx with rfl | hx | hx
      · exact Or.inl rfl
      · refine Or.inr (ih (l.merge r) ?_ x ((mem_merge' l r x).2 (Or.inl hx)))
        rw [size_merge (l.size + r.size) l r (le_refl _)]
        simp only [Heap.size] at hk; omega
      · refine Or.inr (ih (l.merge r) ?_ x ((mem_merge' l r x).2 (Or.inr hx)))
        rw [size_merge (l.size + r.size) l r (le_refl _)]
        simp only [Heap.size] at hk; omega

/-- Events observable on the engine state: `error` records a write to the
diagnostic sink (`console.error` in `tryRun`'s catch); `barrierMat` is a
ghost marker recorded exactly when the `barrier` branch materialises
(pushes) a layer for a barrier id — it changes no behaviour and exists only
so that theorems can count materialisations. -/
inductive Ev where
  | error : Value → Ev
  | barrierMat : Nat → Ev

/-- The module-level mutable state of the kernel: the five queue buckets,
the shared heap, the `barriers` set (as a duplicate-free list), the
`alreadyStarted` flag, the ref-cell store (keyed by ref id) and the event
log. -/
structure EState where
  q0 : QueueBucket
  q1 : QueueBucket
  q2 : QueueBucket
  q3 : QueueBucket
  q4 : QueueBucket
  heap : Heap
  barriers : List Nat
  alreadyStarted : Bool
  refs : List (Nat × Value)
  events : List Ev

def emptyBucket : QueueBucket := { items := [], size := 0 }

def emptyState : EState :=
  { q0 := emptyBucket, q1 := emptyBucket, q2 := emptyBucket,
    q3 := emptyBucket, q4 := emptyBucket, heap := .nil, barriers := [],
    alreadyStarted := false, refs := [], events := [] }

/-- `readRef(graph.reg[id])`: reading an absent ref cell is modelled as
`undefined` (the surrounding graph builder guarantees presence). -/
def readRef (s : EState) (r : Nat) : Value :=
  match s.refs.lookup r with
  | some v => v
  | none => Value.undef

/-- `graph.reg[id].current = value`: ref-cell write. -/
def writeRef (s : EState) (r : Nat) (v : Value) : EState :=
  { s with refs := (r, v) :: s.refs }

/-- JS `===` on modelled values.  Scalars compare structurally; two `arr`
values are object references in JS, which value semantics cannot witness as
aliased, so they compare unequal (conservative; no verified claim depends
on it). -/
def jsStrictEq : Value → Value → Bool
  | .null, .null => true
  | .undef, .undef => true
  | .bool x, .bool y => x == y
  | .int x, .int y => x == y
  | .str x, .str y => x == y
  | _, _ => false

/-- Enqueue (source `pushHeap`): heap-typed priorities (2 = `barrier`,
3 = `sampler`) meld a singleton into the shared heap; the other classes
append to their FIFO bucket.  In every case the class's bucket size is
incremented. -/
def pushHeap (idx : Nat) (stack : Stack) (ty : PriorityTag) (id : Nat)
    (s : EState) : EState :=
  let p := getPriority ty
  let v : Layer := { idx := idx, stack := stack, type := ty, id := id }
  if p = 2 then
    { s with heap := s.heap.merge (.node v .nil .nil),
             q2 := { s.q2 with size := s.q2.size + 1 } }
  else if p = 3 then
    { s with heap := s.heap.merge (.node v .nil .nil),
             q3 := { s.q3 with size := s.q3.size + 1 } }
  else if p = 0 then
    { s with q0 := { items := s.q0.items ++ [v], size := s.q0.size + 1 } }
  else if p = 1 then
    { s with q1 := { items := s.q1.items ++ [v], size := s.q1.size + 1 } }
  else
    { s with q4 := { items := s.q4.items ++ [v], size := s.q4.size + 1 } }

/-- Source `pushFirstHeapItem`: seed a node at step 0 with a fresh stack
frame (scratch slots `null`, given parent) and default id `0`. -/
def pushFirstHeapItem (ty : PriorityTag) (node : Graph) (parent : Option Stack)
    (value : Value) (s : EState) : EState :=
  pushHeap 0 (.mk value .null .null parent node) ty 0 s

/-- Dequeue (source `deleteMin`): scan buckets in priority order; the first
non-empty bucket wins; classes 2 and 3 pop the shared heap's root, the
others pop their FIFO head.  Returns `none` when all buckets are empty (the
source's implicit `undefined`). -/
def deleteMin (s : EState) : Option (Layer × EState) :=
  if s.q0.size > 0 then
    match s.q0.items with
    | [] => none
    | v :: rest =>
      some (v, { s with q0 := { items := rest, size := s.q0.size - 1 } })
  else if s.q1.size > 0 then
    match s.q1.items with
    | [] => none
    | v :: rest =>
      some (v, { s with q1 := { items := rest, size := s.q1.size - 1 } })
  else if s.q2.size > 0 then
    match s.heap with
    | .nil => none
    | .node v l r =>
      some (v, { s with heap := l.merge r,
                        q2 := { s.q2 with size := s.q2.size - 1 } })
  else if s.q3.size > 0 then
    match s.heap with
    | .nil => none
    | .node v l r =>
      some (v, { s with heap := l.merge r,
                        q3 := { s.q3 with size := s.q3.size - 1 } })
  else if s.q4.size > 0 then
    match s.q4.items with
    | [] => none
    | v :: rest =>
      some (v, { s with q4 := { items := rest, size := s.q4.size - 1 } })
  else
    none

/-- Per-node, per-traversal execution flags (source type `Local`). -/
structure Local where
  skip : Bool
  fail : Bool
  ref : String
  scope : Value

/-- Run a deep-embedded user function on `(stack.value, scope, stack)`;
`Except.error` models a thrown exception. -/
def evalFn : FnE → Value → Value → Stack → Except Value Value
  | .const v, _, _, _ => .ok v
  | .throwE e, _, _, _ => .error e
  | .arg, x, _, _ => .ok x
  | .addInt n, x, _, _ =>
    match x with
    | .int m => .ok (.int (m + n))
    | _ => .ok .undef
  | .gtZero, x, _, _ =>
    match x with
    | .int m => .ok (.bool (decide (0 < m)))
    | _ => .ok (.bool false)

/-- Source `tryRun`: call `fn(stack.value, local.scope, stack)`; on a throw,
log to the diagnostic sink (`console.error`), set `local.fail`, and yield
the implicit `undefined` return of the catch branch. -/
def tryRun (loc : Local) (fn : FnE) (stack : Stack) (s : EState) :
    Value × Local × EState :=
  match evalFn fn stack.value loc.scope stack with
  | .ok v => (v, loc, s)
  | .error e => (.undef, { loc with fail := true },
      { s with events := s.events ++ [.error e] })

/-- Result of interpreting one step: continue with updated frame/flags/state,
or abandon the current node (`continue mem`). -/
inductive StepOut where
  | cont : Stack → Local → EState → StepOut
  | jumpMem : EState → StepOut

/-- One iteration of the interpreter's `switch (step.type)`.  `idx` is the
layer's starting index, `ty` its priority class, `stepn` the cursor. -/
def execStep (idx : Nat) (ty : PriorityTag) (stepn : Nat) (step : Step)
    (stack : Stack) (loc : Local) (s : EState) : StepOut :=
  match step with
  | .barrier id priority =>
    if stepn ≠ idx ∨ ty ≠ priority then
      if id ∈ s.barriers then
        .jumpMem s
      else
        .jumpMem (pushHeap stepn stack priority id
          { s with barriers := id :: s.barriers,
                   events := s.events ++ [.barrierMat id] })
    else
      .cont stack loc { s with barriers := s.barriers.erase id }
  | .mov src dst =>
    let v : Value :=
      match src with
      | .stack => stack.value
      | .a => stack.a
      | .b => stack.b
      | .value lit => lit
      | .store r => readRef s r
    (match dst with
     | .stack => .cont (stack.withValue v) loc s
     | .a => .cont (stack.withA v) loc s
     | .b => .cont (stack.withB v) loc s
     | .store r => .cont stack loc (writeRef s r v))
  | .check c =>
    (match c with
     | .defined =>
       .cont stack { loc with skip := jsStrictEq stack.value .undef } s
     | .changed r =>
       .cont stack { loc with skip := jsStrictEq stack.value (readRef s r) } s)
  | .filter fn =>
    let (v, loc', s') := tryRun loc fn stack s
    .cont stack { loc' with skip := !jsTruthy v } s'
  | .run fn =>
    if stepn ≠ idx ∨ ty ≠ .effect then
      .jumpMem (pushHeap stepn stack .effect 0 s)
    else
      let (v, loc', s') := tryRun loc fn stack s
      .cont (stack.withValue v) loc' s'
  | .compute fn =>
    let (v, loc', s') := tryRun loc fn stack s
    .cont (stack.withValue v) loc' s'

/-- The interpreter's step loop (`for (let stepn = idx; stepn <
graph.seq.length && !meta.stop; stepn++)`), walking the remaining steps.
Returns the final state and `none` after `continue mem`, or `some (stack,
stop)` when the loop exits (with `meta.stop`'s final value). -/
def runSteps (idx : Nat) (ty : PriorityTag) :
    List Step → Nat → Stack → Local → EState → EState × Option (Stack × Bool)
  | [], _, stack, _, s => (s, some (stack, false))
  | step :: rest, stepn, stack, loc, s =>
    match execStep idx ty stepn step stack loc s with
    | .jumpMem s' => (s', none)
    | .cont stack' loc' s' =>
      if loc'.fail || loc'.skip then
        (s', some (stack', true))
      else
        runSteps idx ty rest (stepn + 1) stack' loc' s'

/-- Fan-out after clean completion: enqueue one `child` layer per element
of `graph.next`, with a fresh frame sharing the final stack value and
linking `parent` to the current frame. -/
def fanout (g : Graph) (stack : Stack) (s : EState) : EState :=
  g.next.foldl
    (fun acc c => pushFirstHeapItem .child c (some stack) stack.value acc) s

/-- Process one dequeued layer: fresh `local` flags, run the step loop from
the layer's cursor, and fan out to children unless the node stopped or
jumped. -/
def processLayer (v : Layer) (s : EState) : EState :=
  let g := v.stack.node
  let loc : Local := { skip := false, fail := false, ref := "", scope := g.scope }
  match runSteps v.idx v.type (g.seq.drop v.idx) v.idx v.stack loc s with
  | (s', none) => s'
  | (s', some (stack', stop)) => if stop then s' else fanout g stack' s'

/-- The drain loop (`while ((value = deleteMin()))`), with fuel bounding the
number of processed layers. -/
def execLoop : Nat → EState → EState
  | 0, s => s
  | k + 1, s =>
    match deleteMin s with
    | none => s
    | some (v, s') => execLoop k (processLayer v s')

/-- Source `exec`: save `alreadyStarted`, set it for the duration of the
drain, restore afterwards. -/
def exec (fuel : Nat) (s : EState) : EState :=
  let last := s.alreadyStarted
  let s' := execLoop fuel { s with alreadyStarted := true }
  { s' with alreadyStarted := last }

/-- A unit argument to `launch` after descriptor unpacking: a single node
handle or an array of node handles (`getGraph` is collapsed to the identity
since the handle registry lives in `stdlib`, outside these sources). -/
inductive Graphite where
  | one : Graph → Graphite
  | many : List Graph → Graphite

/-- The first argument of `launch`: either a unit, or a descriptor object
`{target, params, defer}` (detected in the source by `unit.target`
truthiness). -/
inductive LaunchArg where
  | unit : Graphite → LaunchArg
  | spec : Graphite → Value → Bool → LaunchArg

/-- JS `payload[i]` for the parallel-array seeding case. -/
def payloadAt (pay : Value) (i : Nat) : Value :=
  match pay with
  | .arr vs => vs.getD i Value.undef
  | _ => Value.undef

/-- The seeding loop of `launch`: one `pure` seed per unit element with the
matching payload element, or a single `pure` seed. -/
def seedsMany : List Graph → Nat → Value → EState → EState
  | [], _, _, s => s
  | g :: gs, i, pay, s =>
    seedsMany gs (i + 1) pay (pushFirstHeapItem .pure g none (payloadAt pay i) s)

def seedLayers : Graphite → Value → EState → EState
  | .one g, pay, s => pushFirstHeapItem .pure g none pay s
  | .many gs, pay, s => seedsMany gs 0 pay s

/-- Descriptor unpacking at the top of `launch`: `{target, params, defer}`
replaces `(unit, payload, upsert)`. -/
def launchArgs : LaunchArg → Value → Bool → Graphite × Value × Bool
  | .unit u, pay, ups => (u, pay, ups)
  | .spec t p d, _, _ => (t, p, d)

/-- Source `launch(unit, payload, upsert)`: unpack a descriptor, seed at
priority `pure`, then either return (when `upsert` holds and a drain is
already running) or run `exec`.  `fuel` bounds the drain loop. -/
def launch (fuel : Nat) (arg : LaunchArg) (payload : Value) (upsert : Bool)
    (s : EState) : EState :=
  let (u, pay, ups) := launchArgs arg payload upsert
  let s' := seedLayers u pay s
  if ups && s'.alreadyStarted then s' else exec fuel s'

/-! ## Queue well-formedness and dequeue ordering -/

/-- Numeric priority of a queued layer. -/
def layerPrio (v : Layer) : Nat := getPriority v.type

/-- Every layer currently held by the queue structure (FIFO buckets plus
the shared heap). -/
def allLayers (s : EState) : List Layer :=
  s.q0.items ++ s.q1.items ++ s.q2.items ++ s.q3.items ++
    s.heap.toList ++ s.q4.items

def countBar (h : Heap) : Nat :=
  h.toList.countP (fun v => decide (v.type = .barrier))

def countSam (h : Heap) : Nat :=
  h.toList.countP (fun v => decide (v.type = .sampler))

/-- Well-formedness of the queue component of the engine state, maintained
by `pushHeap`/`deleteMin`: bucket sizes agree with contents, the two
heap-backed buckets hold no items of their own but count the heap's layers
of their type, FIFO buckets hold only layers of their own class, and the
shared heap is `leK`-ordered and holds only heap-typed layers. -/
structure WFQ (s : EState) : Prop where
  sz0 : s.q0.size = s.q0.items.length
  sz1 : s.q1.size = s.q1.items.length
  sz4 : s.q4.size = s.q4.items.length
  it2 : s.q2.items = []
  it3 : s.q3.items = []
  sz2 : s.q2.size = countBar s.heap
  sz3 : s.q3.size = countSam s.heap
  ty0 : ∀ v ∈ s.q0.items, v.type = .child
  ty1 : ∀ v ∈ s.q1.items, v.type = .pure
  ty4 : ∀ v ∈ s.q4.items, v.type = .effect
  hht : s.heap.AllHT
  hord : HOrd s.heap

theorem count_bar_sam (l : List Layer) (h : ∀ x ∈ l, HTy x) :
    l.countP (fun v => decide (v.type = .barrier)) +
      l.countP (fun v => decide (v.type = .sampler)) = l.length := by
  induction l with
  | nil => simp
  | cons x xs ih =>
    have hx := h x (List.mem_cons_self x xs)
    have ihx := ih (fun y hy => h y (List.mem_cons_of_mem x hy))
    rcases hx with hx | hx <;>
      simp [List.countP_cons, hx, ihx] <;> omega

/-- If the heap is nonempty, ordered and heap-typed, and contains at least
one barrier, its root is a barrier layer. -/
theorem root_barrier {v : Layer} {l r : Heap}
    (ho : HOrd (.node v l r)) (ht : (Heap.node v l r).AllHT)
    (hc : 0 < countBar (.node v l r)) : v.type = .barrier := by
  rcases List.countP_pos_iff.1 hc with ⟨x, hx, hpx⟩
  have hvx := root_le_all ho x hx
  have hxb : x.type = .barrier := by simpa using hpx
  rcases AllHT_node.1 ht with ⟨hv | hv, _, _⟩
  · exact hv
  · rcases hvx with ⟨hty, _⟩ | ⟨hty, _⟩
    · rw [← hty, hv] at hxb; cases hxb
    · rw [hv] at hty; cases hty

/-- With no barriers stored, a nonempty well-typed heap has a sampler
root. -/
theorem root_sampler {v : Layer} {l r : Heap}
    (ht : (Heap.node v l r).AllHT) (hc : countBar (.node v l r) = 0) :
    v.type = .sampler := by
  rcases AllHT_node.1 ht with ⟨hv | hv, _, _⟩
  · exfalso
    have : 0 < countBar (.node v l r) := by
      apply List.countP_pos_iff.2
      exact ⟨v, by simp [Heap.toList], by simpa using hv⟩
    omega
  · exact hv

/-- Every element of a well-typed heap with no stored barriers is a
sampler. -/
theorem all_sampler_of_no_barrier {h : Heap} (ht : h.AllHT)
    (hc : countBar h = 0) : ∀ x ∈ h.toList, x.type = .sampler := by
  intro x hx
  rcases ht x hx with hb | hs
  · exfalso
    have : 0 < countBar h :=
      List.countP_pos_iff.2 ⟨x, hx, by simpa using hb⟩
    omega
  · exact hs

theorem bucket_items_nil {b : QueueBucket} (hsz : b.size = b.items.length)
    (h : ¬ b.size > 0) : b.items = [] := by
  cases hq : b.items with
  | nil => rfl
  | cons a as => rw [hq] at hsz; simp at hsz; omega

theorem size_eq_toList : ∀ (h : Heap), h.toList.length = h.size := by
  intro h
  induction h with
  | nil => rfl
  | node v l r ihl ihr => simp [Heap.toList, Heap.size, ihl, ihr]

theorem length_merge (a b : Heap) :
    (a.merge b).toList.length = a.toList.length + b.toList.length := by
  rw [size_eq_toList, size_merge (a.size + b.size) a b (le_refl _),
    size_eq_toList, size_eq_toList]

/-- Characterisation of a successful `deleteMin` on a well-formed queue:
the remaining state is well-formed, the popped layer has minimal priority
among the remaining layers, the queued layers lose exactly the popped one,
and the total count drops by one. -/
theorem deleteMin_some_spec {s : EState} {v : Layer} {s' : EState}
    (hw : WFQ s) (h : deleteMin s = some (v, s')) :
    WFQ s' ∧ (∀ l ∈ allLayers s', layerPrio v ≤ layerPrio l) ∧
      (∀ l, l ∈ allLayers s ↔ (l = v ∨ l ∈ allLayers s')) ∧
      (allLayers s).length = (allLayers s').length + 1 := by
  unfold deleteMin at h
  by_cases h0 : s.q0.size > 0
  · rw [if_pos h0] at h
    match hit : s.q0.items with
    | [] => rw [hit] at h; cases h
    | w :: rest =>
      rw [hit] at h
      have hp := Option.some.inj h
      have hveq : v = w := (congrArg Prod.fst hp).symm
      have hseq : _ = s' := congrArg Prod.snd hp
      subst hveq
      subst hseq
      have hty := hw.ty0 v (by rw [hit]; exact List.mem_cons_self _ _)
      refine ⟨⟨?_, hw.sz1, hw.sz4, hw.it2, hw.it3, hw.sz2, hw.sz3, ?_,
        hw.ty1, hw.ty4, hw.hht, hw.hord⟩, ?_, ?_, ?_⟩
      · rw [hw.sz0, hit]; simp
      · intro u hu
        exact hw.ty0 u (by rw [hit]; exact List.mem_cons_of_mem _ hu)
      · intro l _
        simp only [layerPrio, hty, getPriority]
        exact Nat.zero_le _
      · intro l
        simp only [allLayers, hit, List.mem_append, List.mem_cons]
        tauto
      · simp only [allLayers, hit, List.length_append, List.length_cons]
        omega
  · rw [if_neg h0] at h
    have hq0 : s.q0.items = [] := bucket_items_nil hw.sz0 h0
    by_cases h1 : s.q1.size > 0
    · rw [if_pos h1] at h
      match hit : s.q1.items with
      | [] => rw [hit] at h; cases h
      | w :: rest =>
        rw [hit] at h
        have hp := Option.some.inj h
        have hveq : v = w := (congrArg Prod.fst hp).symm
        have hseq : _ = s' := congrArg Prod.snd hp
        subst hveq
        subst hseq
        have hty := hw.ty1 v (by rw [hit]; exact List.mem_cons_self _ _)
        refine ⟨⟨hw.sz0, ?_, hw.sz4, hw.it2, hw.it3, hw.sz2, hw.sz3, hw.ty0,
          ?_, hw.ty4, hw.hht, hw.hord⟩, ?_, ?_, ?_⟩
        · rw [hw.sz1, hit]; simp
        · intro u hu
          exact hw.ty1 u (by rw [hit]; exact List.mem_cons_of_mem _ hu)
        · intro l hl
          simp only [allLayers, hq0, List.mem_append, List.nil_append] at hl
          rcases hl with (((hl | hl) | hl) | hl) | hl
          · rw [layerPrio, layerPrio, hty,
              hw.ty1 l (by rw [hit]; exact List.mem_cons_of_mem _ hl)]
          · rw [hw.it2] at hl; cases hl
          · rw [hw.it3] at hl; cases hl
          · rcases hw.hht l hl with hb | hs
            · simp [layerPrio, hty, hb, getPriority]
            · simp [layerPrio, hty, hs, getPriority]
          · rw [layerPrio, layerPrio, hty, hw.ty4 l hl]
            simp [getPriority]
        · intro l
          simp only [allLayers, hit, List.mem_append, List.mem_cons]
          tauto
        · simp only [allLayers, hit, List.length_append, List.length_cons]
          omega
    · rw [if_neg h1] at h
      have hq1 : s.q1.items = [] := bucket_items_nil hw.sz1 h1
      by_cases h2 : s.q2.size > 0
      · rw [if_pos h2] at h
        match hh : s.heap with
        | .nil => rw [hh] at h; cases h
        | .node w hl hr =>
          rw [hh] at h
          have hp := Option.some.inj h
          have hveq : v = w := (congrArg Prod.fst hp).symm
          have hseq : _ = s' := congrArg Prod.snd hp
          subst hveq
          subst hseq
          have hcb : 0 < countBar (.node v hl hr) := by
            rw [← hh, ← hw.sz2]; exact h2
          have hho : HOrd (.node v hl hr) := by rw [← hh]; exact hw.hord
          have hhtn : (Heap.node v hl hr).AllHT := by rw [← hh]; exact hw.hht
          have hvb : v.type = .barrier := root_barrier hho hhtn hcb
          obtain ⟨hvt, hlt, hrt⟩ := AllHT_node.1 hhtn
          refine ⟨⟨hw.sz0, hw.sz1, hw.sz4, hw.it2, hw.it3, ?_, ?_, hw.ty0,
            hw.ty1, hw.ty4, ?_, ?_⟩, ?_, ?_, ?_⟩
          · rw [hw.sz2, hh]
            unfold countBar
            rw [countP_merge' hl hr]
            simp [Heap.toList, List.countP_cons, List.countP_append, hvb]
          · rw [hw.sz3, hh]
            unfold countSam
            rw [countP_merge' hl hr]
            simp [Heap.toList, List.countP_cons, List.countP_append, hvb]
          · exact AllHT_merge hlt hrt
          · exact merge_HOrd' hlt hrt hho.2.2.1 hho.2.2.2
          · intro l hlm
            simp only [allLayers, hq0, hq1, hw.it2, hw.it3, List.mem_append,
              List.nil_append, List.not_mem_nil, false_or, or_false] at hlm
            rcases hlm with hlm | hlm
            · have hmem : l ∈ (Heap.node v hl hr).toList := by
                rcases (mem_merge' hl hr l).1 hlm with hx | hx <;>
                  · simp only [Heap.toList, List.mem_cons, List.mem_append]
                    tauto
              rcases hhtn l hmem with hb | hs
              · simp [layerPrio, hvb, hb, getPriority]
              · simp [layerPrio, hvb, hs, getPriority]
            · rw [layerPrio, layerPrio, hvb, hw.ty4 l hlm]
              simp [getPriority]
          · intro l
            simp only [allLayers, hh, List.mem_append, Heap.toList,
              List.mem_cons, mem_merge' hl hr l]
            tauto
          · simp only [allLayers, hh, List.length_append, Heap.toList,
              List.length_cons, length_merge hl hr]
            omega
      · rw [if_neg h2] at h
        by_cases h3 : s.q3.size > 0
        · rw [if_pos h3] at h
          match hh : s.heap with
          | .nil => rw [hh] at h; cases h
          | .node w hl hr =>
            rw [hh] at h
            have hp := Option.some.inj h
            have hveq : v = w := (congrArg Prod.fst hp).symm
            have hseq : _ = s' := congrArg Prod.snd hp
            subst hveq
            subst hseq
            have hcb : countBar (.node v hl hr) = 0 := by
              rw [← hh, ← hw.sz2]; omega
            have hho : HOrd (.node v hl hr) := by rw [← hh]; exact hw.hord
            have hhtn : (Heap.node v hl hr).AllHT := by
              rw [← hh]; exact hw.hht
            have hvs : v.type = .sampler := root_sampler hhtn hcb
            obtain ⟨hvt, hlt, hrt⟩ := AllHT_node.1 hhtn
            refine ⟨⟨hw.sz0, hw.sz1, hw.sz4, hw.it2, hw.it3, ?_, ?_, hw.ty0,
              hw.ty1, hw.ty4, ?_, ?_⟩, ?_, ?_, ?_⟩
            · rw [hw.sz2, hh]
              unfold countBar
              rw [countP_merge' hl hr]
              simp [Heap.toList, List.countP_cons, List.countP_append, hvs]
            · rw [hw.sz3, hh]
              unfold countSam
              rw [countP_merge' hl hr]
              simp [Heap.toList, List.countP_cons, List.countP_append, hvs]
            · exact AllHT_merge hlt hrt
            · exact merge_HOrd' hlt hrt hho.2.2.1 hho.2.2.2
            · intro l hlm
              simp only [allLayers, hq0, hq1, hw.it2, hw.it3, List.mem_append,
                List.nil_append, List.not_mem_nil, false_or, or_false] at hlm
              rcases hlm with hlm | hlm
              · have hmem : l ∈ s.heap.toList := by
                  rw [hh]
                  rcases (mem_merge' hl hr l).1 hlm with hx | hx <;>
                    · simp only [Heap.toList, List.mem_cons, List.mem_append]
                      tauto
                have hls : l.type = .sampler :=
                  all_sampler_of_no_barrier hw.hht
                    (by rw [← hw.sz2]; omega) l hmem
                simp [layerPrio, hvs, hls, getPriority]
              · rw [layerPrio, layerPrio, hvs, hw.ty4 l hlm]
                simp [getPriority]
            · intro l
              simp only [allLayers, hh, List.mem_append, Heap.toList,
                List.mem_cons, mem_merge' hl hr l]
              tauto
            · simp only [allLayers, hh, List.length_append, Heap.toList,
                List.length_cons, length_merge hl hr]
              omega
        · rw [if_neg h3] at h
          have hheap : s.heap.toList = [] := by
            have hcnt := count_bar_sam s.heap.toList hw.hht
            have hb : countBar s.heap = 0 := by rw [← hw.sz2]; omega
            have hsm : countSam s.heap = 0 := by rw [← hw.sz3]; omega
            unfold countBar at hb
            unfold countSam at hsm
            cases hq : s.heap.toList with
            | nil => rfl
            | cons a as =>
              exfalso
              rw [hq] at hcnt hb hsm
              simp at hcnt
              omega
          by_cases h4 : s.q4.size > 0
          · rw [if_pos h4] at h
            match hit : s.q4.items with
            | [] => rw [hit] at h; cases h
            | w :: rest =>
              rw [hit] at h
              have hp := Option.some.inj h
              have hveq : v = w := (congrArg Prod.fst hp).symm
              have hseq : _ = s' := congrArg Prod.snd hp
              subst hveq
              subst hseq
              have hty := hw.ty4 v (by rw [hit]; exact List.mem_cons_self _ _)
              refine ⟨⟨hw.sz0, hw.sz1, ?_, hw.it2, hw.it3, hw.sz2, hw.sz3,
                hw.ty0, hw.ty1, ?_, hw.hht, hw.hord⟩, ?_, ?_, ?_⟩
              · rw [hw.sz4, hit]; simp
              · intro u hu
                exact hw.ty4 u (by rw [hit]; exact List.mem_cons_of_mem _ hu)
              · intro l hlm
                simp only [allLayers, hq0, hq1, hw.it2, hw.it3, hheap,
                  List.mem_append, List.nil_append, List.not_mem_nil,
                  false_or, or_false] at hlm
                rw [layerPrio, layerPrio, hty,
                  hw.ty4 l (by rw [hit]; exact List.mem_cons_of_mem _ hlm)]
              · intro l
                simp only [allLayers, hit, List.mem_append, List.mem_cons]
                tauto
              · simp only [allLayers, hit, List.length_append,
                  List.length_cons]
                omega
          · rw [if_neg h4] at h; cases h

/-- On a well-formed queue, `deleteMin` returns `none` only when there are
no queued layers at all. -/
theorem deleteMin_none_spec {s : EState} (hw : WFQ s)
    (h : deleteMin s = none) : allLayers s = [] := by
  unfold deleteMin at h
  by_cases h0 : s.q0.size > 0
  · rw [if_pos h0] at h
    match hit : s.q0.items with
    | [] =>
      exfalso
      rw [hw.sz0, hit] at h0
      simp at h0
    | w :: rest => rw [hit] at h; cases h
  · rw [if_neg h0] at h
    have hq0 : s.q0.items = [] := bucket_items_nil hw.sz0 h0
    by_cases h1 : s.q1.size > 0
    · rw [if_pos h1] at h
      match hit : s.q1.items with
      | [] =>
        exfalso
        rw [hw.sz1, hit] at h1
        simp at h1
      | w :: rest => rw [hit] at h; cases h
    · rw [if_neg h1] at h
      have hq1 : s.q1.items = [] := bucket_items_nil hw.sz1 h1
      by_cases h2 : s.q2.size > 0
      · rw [if_pos h2] at h
        match hh : s.heap with
        | .nil =>
          exfalso
          rw [hw.sz2, hh] at h2
          unfold countBar at h2
          simp [Heap.toList] at h2
        | .node w hl hr => rw [hh] at h; cases h
      · rw [if_neg h2] at h
        by_cases h3 : s.q3.size > 0
        · rw [if_pos h3] at h
          match hh : s.heap with
          | .nil =>
            exfalso
            rw [hw.sz3, hh] at h3
            unfold countSam at h3
            simp [Heap.toList] at h3
          | .node w hl hr => rw [hh] at h; cases h
        · rw [if_neg h3] at h
          have hheap : s.heap.toList = [] := by
            have hcnt := count_bar_sam s.heap.toList hw.hht
            have hb : countBar s.heap = 0 := by rw [← hw.sz2]; omega
            have hsm : countSam s.heap = 0 := by rw [← hw.sz3]; omega
            unfold countBar at hb
            unfold countSam at hsm
            cases hq : s.heap.toList with
            | nil => rfl
            | cons a as =>
              exfalso
              rw [hq] at hcnt hb hsm
              simp at hcnt
              omega
          by_cases h4 : s.q4.size > 0
          · rw [if_pos h4] at h
            match hit : s.q4.items with
            | [] =>
              exfalso
              rw [hw.sz4, hit] at h4
              simp at h4
            | w :: rest => rw [hit] at h; cases h
          · have hq4 : s.q4.items = [] := bucket_items_nil hw.sz4 h4
            simp [allLayers, hq0, hq1, hq4, hheap, hw.it2, hw.it3]

/-- Draining the queue by repeated `deleteMin` (no intervening pushes),
with fuel; this is the dequeue order of layers that are all enqueued before
any of them is executed. -/
def qdrain : Nat → EState → List Layer
  | 0, _ => []
  | k + 1, s =>
    match deleteMin s with
    | none => []
    | some (v, s') => v :: qdrain k s'

theorem qdrain_subset : ∀ (k : Nat) (s : EState), WFQ s →
    ∀ x ∈ qdrain k s, x ∈ allLayers s := by
  intro k
  induction k with
  | zero => intro s _ x hx; simp [qdrain] at hx
  | succ k ih =>
    intro s hw x hx
    match hd : deleteMin s with
    | none => rw [qdrain, hd] at hx; simp at hx
    | some (v, s') =>
      rw [qdrain, hd] at hx
      obtain ⟨hw', _, hmem, _⟩ := deleteMin_some_spec hw hd
      rcases List.mem_cons.1 hx with rfl | hx
      · exact (hmem x).2 (Or.inl rfl)
      · exact (hmem x).2 (Or.inr (ih s' hw' x hx))

/-- On a well-formed queue, drained layers come out in order of
non-decreasing numeric priority. -/
theorem qdrain_sorted : ∀ (k : Nat) (s : EState), WFQ s →
    (qdrain k s).Pairwise (fun a b => layerPrio a ≤ layerPrio b) := by
  intro k
  induction k with
  | zero => intro s _; simp [qdrain]
  | succ k ih =>
    intro s hw
    match hd : deleteMin s with
    | none => rw [qdrain, hd]; simp
    | some (v, s') =>
      rw [qdrain, hd]
      obtain ⟨hw', hmin, _, _⟩ := deleteMin_some_spec hw hd
      refine List.pairwise_cons.2 ⟨?_, ih s' hw'⟩
      intro x hx
      exact hmin x (qdrain_subset k s' hw' x hx)

/-- With fuel at least the number of queued layers, the drain reaches every
queued layer. -/
theorem qdrain_complete : ∀ (k : Nat) (s : EState), WFQ s →
    (allLayers s).length ≤ k → ∀ l ∈ allLayers s, l ∈ qdrain k s := by
  intro k
  induction k with
  | zero =>
    intro s _ hlen l hl
    have : allLayers s = [] := List.length_eq_zero.1 (by omega)
    rw [this] at hl
    cases hl
  | succ k ih =>
    intro s hw hlen l hl
    match hd : deleteMin s with
    | none =>
      rw [deleteMin_none_spec hw hd] at hl
      cases hl
    | some (v, s') =>
      rw [qdrain, hd]
      obtain ⟨hw', _, hmem, hcnt⟩ := deleteMin_some_spec hw hd
      rcases (hmem l).1 hl with rfl | hl'
      · exact List.mem_cons_self _ _
      · exact List.mem_cons_of_mem _ (ih s' hw' (by omega) l hl')

/-- C2: for any two queued layers with numeric priorities `p1 < p2` under
the fixed order child (0) < pure (1) < barrier (2) < sampler (3) <
effect (4), if both are enqueued before either is executed (i.e. both sit
in a well-formed queue that is then drained), the lower-priority-number
layer is dequeued and executed strictly earlier: the drain reaches every
queued layer, and within the drained sequence any strict priority increase
implies a strictly later position. -/
theorem c2_cross_class_priority_order (s : EState) (hw : WFQ s) :
    (∀ l ∈ allLayers s, l ∈ qdrain (allLayers s).length s) ∧
    (∀ (i j : Fin (qdrain (allLayers s).length s).length),
      layerPrio ((qdrain (allLayers s).length s).get i) <
        layerPrio ((qdrain (allLayers s).length s).get j) →
      (i : Nat) < (j : Nat)) := by
  constructor
  · exact qdrain_complete (allLayers s).length s hw (le_refl _)
  · intro i j hlt
    by_contra hcon
    push_neg at hcon
    have hsorted := qdrain_sorted (allLayers s).length s hw
    have hget := List.pairwise_iff_get.1 hsorted
    rcases eq_or_lt_of_le hcon with heq | hji
    · have hij : j = i := Fin.ext heq
      rw [hij] at hlt
      exact lt_irrefl _ hlt
    · have := hget j i (Fin.lt_def.2 hji)
      omega

def witGraph : Graph := .mk [] [] .null

def witStack : Stack := .mk .null .null .null none witGraph

def witLayerChild : Layer :=
  { idx := 0, stack := witStack, type := .child, id := 0 }

def witLayerEffect : Layer :=
  { idx := 0, stack := witStack, type := .effect, id := 0 }

/-- A tiny concrete well-formed queue: one `child` layer and one `effect`
layer. -/
def sWc2 : EState :=
  { emptyState with
    q0 := { items := [witLayerChild], size := 1 },
    q4 := { items := [witLayerEffect], size := 1 } }

theorem sWc2_wfq : WFQ sWc2 := by
  refine ⟨rfl, rfl, rfl, rfl, rfl, rfl, rfl, ?_, ?_, ?_, ?_, trivial⟩
  · intro v hv
    rw [List.mem_singleton.1 hv]
    rfl
  · intro v hv
    cases hv
  · intro v hv
    rw [List.mem_singleton.1 hv]
    rfl
  · intro x hx
    cases hx

theorem c2_cross_class_priority_order_witness :
    WFQ sWc2 ∧
    ((∀ l ∈ allLayers sWc2, l ∈ qdrain (allLayers sWc2).length sWc2) ∧
     (∀ (i j : Fin (qdrain (allLayers sWc2).length sWc2).length),
        layerPrio ((qdrain (allLayers sWc2).length sWc2).get i) <
          layerPrio ((qdrain (allLayers sWc2).length sWc2).get j) →
        (i : Nat) < (j : Nat))) :=
  ⟨sWc2_wfq, c2_cross_class_priority_order sWc2 sWc2_wfq⟩

/-- C3: within the shared skew heap, a `barrier` layer is always dequeued
before any `sampler` layer, and among two layers of the same type the one
with the smaller id comes out first: the heap drain reaches every stored
layer, and in the drained sequence a barrier never appears at or after a
sampler's position, nor a larger id at or before a smaller id of the same
type. -/
theorem c3_heap_barrier_before_sampler (h : Heap) (ho : HOrd h)
    (ht : h.AllHT) :
    (∀ x ∈ h.toList, x ∈ heapDrain h.size h) ∧
    (∀ (i j : Fin (heapDrain h.size h).length),
      (((heapDrain h.size h).get i).type = .barrier →
        ((heapDrain h.size h).get j).type = .sampler →
        (i : Nat) < (j : Nat)) ∧
      (((heapDrain h.size h).get i).type = ((heapDrain h.size h).get j).type →
        ((heapDrain h.size h).get i).id < ((heapDrain h.size h).get j).id →
        (i : Nat) < (j : Nat))) := by
  constructor
  · exact heapDrain_complete h.size h (le_refl _)
  · intro i j
    have hsorted := heapDrain_sorted h.size h ho ht
    have hget := List.pairwise_iff_get.1 hsorted
    constructor
    · intro hib hjs
      by_contra hcon
      push_neg at hcon
      rcases eq_or_lt_of_le hcon with heq | hji
      · have hij : j = i := Fin.ext heq
        rw [hij, hib] at hjs
        cases hjs
      · rcases hget j i (Fin.lt_def.2 hji) with ⟨hty, _⟩ | ⟨hty, _⟩
        · rw [hjs, hib] at hty
          cases hty
        · rw [hjs] at hty
          cases hty
    · intro hty hid
      by_contra hcon
      push_neg at hcon
      rcases eq_or_lt_of_le hcon with heq | hji
      · have hij : j = i := Fin.ext heq
        rw [hij] at hid
        exact lt_irrefl _ hid
      · rcases hget j i (Fin.lt_def.2 hji) with ⟨_, hle⟩ | ⟨hbj, hsi⟩
        · omega
        · rw [hty, hbj] at hsi
          cases hsi

def witLayerBar : Layer :=
  { idx := 0, stack := witStack, type := .barrier, id := 2 }

def witLayerSam : Layer :=
  { idx := 0, stack := witStack, type := .sampler, id := 1 }

/-- A tiny concrete well-formed shared heap: a barrier root above a
sampler. -/
def hWc3 : Heap := .node witLayerBar (.node witLayerSam .nil .nil) .nil

theorem hWc3_hord : HOrd hWc3 := by
  refine ⟨?_, ?_, ⟨?_, ?_, trivial, trivial⟩, trivial⟩
  · intro x hx
    simp only [Heap.toList, List.append_nil, List.mem_singleton] at hx
    rw [hx]
    exact Or.inr ⟨rfl, rfl⟩
  · intro x hx
    cases hx
  · intro x hx
    cases hx
  · intro x hx
    cases hx

theorem hWc3_allht : hWc3.AllHT := by
  intro x hx
  simp only [hWc3, Heap.toList, List.append_nil, List.nil_append,
    List.mem_cons, List.not_mem_nil, or_false] at hx
  rcases hx with rfl | rfl
  · exact Or.inl rfl
  · exact Or.inr rfl

theorem c3_heap_barrier_before_sampler_witness :
    HOrd hWc3 ∧ hWc3.AllHT ∧
    ((∀ x ∈ hWc3.toList, x ∈ heapDrain hWc3.size hWc3) ∧
     (∀ (i j : Fin (heapDrain hWc3.size hWc3).length),
       (((heapDrain hWc3.size hWc3).get i).type = .barrier →
         ((heapDrain hWc3.size hWc3).get j).type = .sampler →
         (i : Nat) < (j : Nat)) ∧
       (((heapDrain hWc3.size hWc3).get i).type =
           ((heapDrain hWc3.size hWc3).get j).type →
         ((heapDrain hWc3.size hWc3).get i).id <
           ((heapDrain hWc3.size hWc3).get j).id →
         (i : Nat) < (j : Nat)))) :=
  ⟨hWc3_hord, hWc3_allht,
    c3_heap_barrier_before_sampler hWc3 hWc3_hord hWc3_allht⟩

/-! ## FIFO discipline of the `child`/`pure`/`effect` buckets -/

/-- An enqueue (with the source's default id `0`) or a dequeue, restricted
to a single priority class. -/
inductive QOp where
  | push : Nat → Stack → QOp
  | pop : QOp

/-- Run a sequence of single-class queue operations through the real
`pushHeap`/`deleteMin`, collecting the dequeued layers in order. -/
def runOps (t : PriorityTag) : List QOp → EState → EState × List Layer
  | [], s => (s, [])
  | .push i st :: ops, s => runOps t ops (pushHeap i st t 0 s)
  | .pop :: ops, s =>
    match deleteMin s with
    | none => runOps t ops s
    | some (v, s') =>
      let (s'', out) := runOps t ops s'
      (s'', v :: out)

/-- The layers enqueued by an op sequence, in enqueue order. -/
def pushedOf (t : PriorityTag) : List QOp → List Layer
  | [] => []
  | .push i st :: ops =>
    { idx := i, stack := st, type := t, id := 0 } :: pushedOf t ops
  | .pop :: ops => pushedOf t ops

/-- A state whose only contents are bucket `getPriority t` holding `L`. -/
def fifoState (t : PriorityTag) (L : List Layer) : EState :=
  if getPriority t = 0 then
    { emptyState with q0 := { items := L, size := L.length } }
  else if getPriority t = 1 then
    { emptyState with q1 := { items := L, size := L.length } }
  else
    { emptyState with q4 := { items := L, size := L.length } }

theorem fifo_push (t : PriorityTag)
    (ht : t = .child ∨ t = .pure ∨ t = .effect) (i : Nat) (st : Stack)
    (L : List Layer) :
    pushHeap i st t 0 (fifoState t L) =
      fifoState t (L ++ [{ idx := i, stack := st, type := t, id := 0 }]) := by
  rcases ht with rfl | rfl | rfl <;>
    simp [pushHeap, fifoState, getPriority, emptyState, emptyBucket]

theorem fifo_pop_nil (t : PriorityTag)
    (ht : t = .child ∨ t = .pure ∨ t = .effect) :
    deleteMin (fifoState t []) = none := by
  rcases ht with rfl | rfl | rfl <;> rfl

theorem fifo_pop_cons (t : PriorityTag)
    (ht : t = .child ∨ t = .pure ∨ t = .effect) (v : Layer) (L : List Layer) :
    deleteMin (fifoState t (v :: L)) = some (v, fifoState t L) := by
  rcases ht with rfl | rfl | rfl <;>
    simp [deleteMin, fifoState, getPriority, emptyState, emptyBucket]

theorem runOps_fifo (t : PriorityTag)
    (ht : t = .child ∨ t = .pure ∨ t = .effect) :
    ∀ (ops : List QOp) (L : List Layer),
      ∃ M out, runOps t ops (fifoState t L) = (fifoState t M, out) ∧
        L ++ pushedOf t ops = out ++ M := by
  intro ops
  induction ops with
  | nil =>
    intro L
    exact ⟨L, [], rfl, by simp [pushedOf]⟩
  | cons op ops ih =>
    intro L
    match op with
    | .push i st =>
      obtain ⟨M, out, heq, hal⟩ :=
        ih (L ++ [{ idx := i, stack := st, type := t, id := 0 }])
      refine ⟨M, out, ?_, ?_⟩
      · rw [runOps, fifo_push t ht, heq]
      · rw [pushedOf, ← hal]
        simp
    | .pop =>
      match L with
      | [] =>
        obtain ⟨M, out, heq, hal⟩ := ih []
        refine ⟨M, out, ?_, ?_⟩
        · rw [runOps, fifo_pop_nil t ht]
          exact heq
        · rw [pushedOf]
          simpa using hal
      | v :: L' =>
        obtain ⟨M, out, heq, hal⟩ := ih L'
        refine ⟨M, v :: out, ?_, ?_⟩
        · rw [runOps, fifo_pop_cons t ht]
          simp only [heq]
        · rw [pushedOf]
          simpa using hal

theorem fifoState_nil (t : PriorityTag)
    (ht : t = .child ∨ t = .pure ∨ t = .effect) :
    fifoState t [] = emptyState := by
  rcases ht with rfl | rfl | rfl <;> rfl

/-- C4: for any sequence of enqueues and dequeues restricted to one of the
classes `child`, `pure`, or `effect`, the dequeued layers come out exactly
in enqueue order (the dequeue sequence is a prefix of the enqueue
sequence). -/
theorem c4_fifo_order (t : PriorityTag)
    (ht : t = .child ∨ t = .pure ∨ t = .effect) (ops : List QOp) :
    List.IsPrefix (runOps t ops emptyState).2 (pushedOf t ops) := by
  obtain ⟨M, out, heq, hal⟩ := runOps_fifo t ht ops []
  rw [← fifoState_nil t ht, heq]
  exact ⟨M, by simpa using hal.symm⟩

theorem c4_fifo_order_witness :
    (PriorityTag.pure = .child ∨ PriorityTag.pure = .pure ∨
      PriorityTag.pure = .effect) ∧
    List.IsPrefix
      (runOps .pure [.push 0 witStack, .push 1 witStack, .pop, .pop, .pop]
        emptyState).2
      (pushedOf .pure [.push 0 witStack, .push 1 witStack, .pop, .pop, .pop]) :=
  ⟨Or.inr (Or.inl rfl),
    c4_fifo_order .pure (Or.inr (Or.inl rfl))
      [.push 0 witStack, .push 1 witStack, .pop, .pop, .pop]⟩

/-! ## The `run` step and user-function failure -/

def locW : Local := { skip := false, fail := false, ref := "", scope := .null }

/-- C7: a `run` step executed at cursor `stepn` re-pushes the layer
`{cursor = stepn, same stack, priority = effect, id = 0}` and aborts the
node whenever `stepn` is not the layer's starting index or the current
priority class is not `effect`; otherwise it behaves exactly as a `compute`
step (the source's deliberate fallthrough). -/
theorem c7_run_step_semantics (idx : Nat) (ty : PriorityTag) (stepn : Nat)
    (fn : FnE) (stack : Stack) (loc : Local) (s : EState) :
    (stepn ≠ idx ∨ ty ≠ .effect →
      execStep idx ty stepn (.run fn) stack loc s =
        .jumpMem (pushHeap stepn stack .effect 0 s)) ∧
    (stepn = idx ∧ ty = .effect →
      execStep idx ty stepn (.run fn) stack loc s =
        execStep idx ty stepn (.compute fn) stack loc s) := by
  constructor
  · intro h
    simp only [execStep, if_pos h]
  · rintro ⟨rfl, rfl⟩
    simp [execStep]

theorem c7_run_step_semantics_witness :
    execStep 0 .child 0 (.run .arg) witStack locW emptyState =
      .jumpMem (pushHeap 0 witStack .effect 0 emptyState) ∧
    execStep 0 .effect 0 (.run .arg) witStack locW emptyState =
      execStep 0 .effect 0 (.compute .arg) witStack locW emptyState :=
  ⟨(c7_run_step_semantics 0 .child 0 .arg witStack locW emptyState).1
      (Or.inr (by decide)),
    (c7_run_step_semantics 0 .effect 0 .arg witStack locW emptyState).2
      ⟨rfl, rfl⟩⟩

/-- C5 counterexample: the claim says a throwing user function makes the
engine return `null` as the effective result, but the source's `tryRun` has
no `return` in its catch branch, so the effective result is JavaScript's
`undefined`, which is a different value from `null`. -/
theorem c5_null_result_counterexample :
    (tryRun locW (.throwE (.int 0)) witStack emptyState).1 = Value.undef ∧
    Value.undef ≠ Value.null :=
  ⟨rfl, fun h => Value.noConfusion h⟩

/-- C5 (amended: the effective result is `undefined`, not `null`): whenever
a user function passed to a `filter`, `compute`, or `run` step throws, the
engine catches the exception, sets the node's local `fail` flag, writes the
error to the diagnostic sink, and yields `undefined` as the effective
result; the current node stops at that step (no further steps run, no
children are enqueued — the queue component of the state is untouched), and
the drain loop continues with the remaining queued layers. -/
theorem c5_user_throw_handling (fn : FnE) (e : Value) (stack : Stack)
    (sc : Value) (h : evalFn fn stack.value sc stack = .error e) :
    (∀ (loc : Local), loc.scope = sc → ∀ (s : EState),
      tryRun loc fn stack s =
        (.undef, { loc with fail := true },
          { s with events := s.events ++ [.error e] })) ∧
    (∀ (loc : Local), loc.scope = sc →
      ∀ (s : EState) (idx stepn : Nat) (ty : PriorityTag) (rest : List Step),
      runSteps idx ty (Step.filter fn :: rest) stepn stack loc s =
        ({ s with events := s.events ++ [.error e] }, some (stack, true))) ∧
    (∀ (loc : Local), loc.scope = sc →
      ∀ (s : EState) (idx stepn : Nat) (ty : PriorityTag) (rest : List Step),
      runSteps idx ty (Step.compute fn :: rest) stepn stack loc s =
        ({ s with events := s.events ++ [.error e] },
          some (stack.withValue .undef, true))) ∧
    (∀ (loc : Local), loc.scope = sc →
      ∀ (s : EState) (idx : Nat) (rest : List Step),
      runSteps idx .effect (Step.run fn :: rest) idx stack loc s =
        ({ s with events := s.events ++ [.error e] },
          some (stack.withValue .undef, true))) ∧
    (∀ (v : Layer) (s : EState) (rest : List Step), v.stack = stack →
      v.stack.node.scope = sc →
      v.stack.node.seq.drop v.idx = Step.compute fn :: rest →
      processLayer v s = { s with events := s.events ++ [.error e] }) := by
  have htry : ∀ (loc : Local), loc.scope = sc → ∀ (s : EState),
      tryRun loc fn stack s =
        (.undef, { loc with fail := true },
          { s with events := s.events ++ [.error e] }) := by
    intro loc hloc s
    unfold tryRun
    rw [hloc, h]
  refine ⟨htry, ?_, ?_, ?_, ?_⟩
  · intro loc hloc s idx stepn ty rest
    rw [runSteps]
    simp only [execStep, htry loc hloc s, jsTruthy]
    rfl
  · intro loc hloc s idx stepn ty rest
    rw [runSteps]
    simp only [execStep, htry loc hloc s]
    rfl
  · intro loc hloc s idx rest
    rw [runSteps]
    simp only [execStep]
    rw [if_neg (by simp)]
    simp only [htry loc hloc s]
    rfl
  · intro v s rest hst hsc hdrop
    unfold processLayer
    dsimp only
    rw [hdrop, hst]
    have hc : runSteps v.idx v.type (Step.compute fn :: rest) v.idx stack
        ⟨false, false, "", stack.node.scope⟩ s =
        ({ s with events := s.events ++ [.error e] },
          some (stack.withValue .undef, true)) := by
      rw [runSteps]
      have htr := htry ⟨false, false, "", stack.node.scope⟩
        (by rw [← hst]; exact hsc) s
      simp only [execStep, htr]
      rfl
    rw [hc]
    rfl

def c5Fn : FnE := .throwE (.int 7)

theorem c5_user_throw_handling_witness :
    evalFn c5Fn witStack.value Value.null witStack = .error (.int 7) ∧
    tryRun locW c5Fn witStack emptyState =
      (.undef, { locW with fail := true },
        { emptyState with events := emptyState.events ++ [.error (.int 7)] }) :=
  ⟨rfl,
    (c5_user_throw_handling c5Fn (.int 7) witStack .null rfl).1 locW rfl
      emptyState⟩

/-! ## Nested `launch` and seeding -/

/-- Modelled from the spec: the behaviour the claim ascribes to every
nested `launch` — the seeded layers are appended to the live queue and the
call returns without re-entering the drain loop (the state is otherwise
untouched). -/
def launchNoReenter (arg : LaunchArg) (payload : Value) (upsert : Bool)
    (s : EState) : EState :=
  let (u, pay, _) := launchArgs arg payload upsert
  seedLayers u pay s

def c6Graph : Graph := .mk [.mov (.value (.int 42)) (.store 9)] [] .null

def c6Start : EState := { emptyState with alreadyStarted := true }

/-- C6 counterexample: a nested `launch` (flag already set) with `upsert`
false does re-enter the drain loop — the seeded layer is consumed and its
`mov` writes ref 9, instead of staying queued as the claim demands. -/
theorem c6_nested_launch_counterexample :
    launch 5 (.unit (.one c6Graph)) .null false c6Start ≠
      launchNoReenter (.unit (.one c6Graph)) .null false c6Start ∧
    (launch 5 (.unit (.one c6Graph)) .null false c6Start).q1.size = 0 ∧
    (launchNoReenter (.unit (.one c6Graph)) .null false c6Start).q1.size = 1 ∧
    readRef (launch 5 (.unit (.one c6Graph)) .null false c6Start) 9 =
      Value.int 42 := by
  refine ⟨?_, rfl, rfl, rfl⟩
  intro h
  have h1 : (launch 5 (.unit (.one c6Graph)) .null false c6Start).q1.size =
      0 := rfl
  have h2 : (launchNoReenter (.unit (.one c6Graph)) .null false
      c6Start).q1.size = 1 := rfl
  rw [h, h2] at h1
  cases h1

theorem pushHeap_started (i : Nat) (st : Stack) (ty : PriorityTag) (id : Nat)
    (s : EState) :
    (pushHeap i st ty id s).alreadyStarted = s.alreadyStarted := by
  unfold pushHeap
  dsimp only
  split_ifs <;> rfl

theorem seedsMany_started : ∀ (gs : List Graph) (i : Nat) (pay : Value)
    (s : EState), (seedsMany gs i pay s).alreadyStarted = s.alreadyStarted := by
  intro gs
  induction gs with
  | nil => intro i pay s; rfl
  | cons g gs ih =>
    intro i pay s
    rw [seedsMany, ih]
    exact pushHeap_started _ _ _ _ _

theorem seedLayers_started (u : Graphite) (pay : Value) (s : EState) :
    (seedLayers u pay s).alreadyStarted = s.alreadyStarted := by
  match u with
  | .one g => exact pushHeap_started _ _ _ _ _
  | .many gs => exact seedsMany_started gs 0 pay s

/-- C6 (amended: only `upsert` calls return without draining): a `launch`
with `upsert = true` made while a drain is already in progress (the
`alreadyStarted` flag is set) appends its seeded layers to the live queue
and returns without re-entering the drain loop; with `upsert` false the
source runs `exec` again (see the counterexample). -/
theorem c6_upsert_no_reenter (fuel : Nat) (u : Graphite) (pay : Value)
    (s : EState) (h : s.alreadyStarted = true) :
    launch fuel (.unit u) pay true s = seedLayers u pay s := by
  unfold launch launchArgs
  dsimp only
  rw [if_pos]
  rw [seedLayers_started, h]
  rfl

theorem c6_upsert_no_reenter_witness :
    c6Start.alreadyStarted = true ∧
    launch 3 (.unit (.one witGraph)) .null true c6Start =
      seedLayers (.one witGraph) .null c6Start :=
  ⟨rfl, c6_upsert_no_reenter 3 (.one witGraph) .null c6Start rfl⟩

theorem seedsMany_q1 : ∀ (gs : List Graph) (i : Nat) (pay : Value)
    (s : EState),
    (seedsMany gs i pay s).q1.items =
      s.q1.items ++ (List.enumFrom i gs).map (fun q =>
        { idx := 0, stack := .mk (payloadAt pay q.1) .null .null none q.2,
          type := .pure, id := 0 }) := by
  intro gs
  induction gs with
  | nil => intro i pay s; simp [seedsMany, List.enumFrom]
  | cons g gs ih =>
    intro i pay s
    rw [seedsMany, ih]
    have hpush : (pushFirstHeapItem .pure g none (payloadAt pay i) s).q1.items
        = s.q1.items ++
          [{ idx := 0, stack := .mk (payloadAt pay i) .null .null none g,
             type := .pure, id := 0 }] := rfl
    rw [hpush]
    simp [List.enumFrom]

/-- C8: `launch`'s argument handling.  A descriptor `{target, params,
defer}` is unpacked to `(target, params, defer)` before seeding; an array
unit seeds one `pure` layer per element with the parallel payload element;
otherwise a single `pure` layer is seeded — in every case with a fresh
stack frame (null scratch slots) whose parent is null and layer id 0. -/
theorem c8_launch_seeding (fuel : Nat) :
    (∀ (t : Graphite) (p : Value) (d : Bool) (pay : Value) (ups : Bool)
      (s : EState),
      launch fuel (.spec t p d) pay ups s = launch fuel (.unit t) p d s) ∧
    (∀ (g : Graph) (pay : Value) (s : EState),
      seedLayers (.one g) pay s =
        pushHeap 0 (.mk pay .null .null none g) .pure 0 s) ∧
    (∀ (g : Graph) (pay : Value) (s : EState),
      (seedLayers (.one g) pay s).q1.items =
        s.q1.items ++
          [{ idx := 0, stack := .mk pay .null .null none g,
             type := .pure, id := 0 }]) ∧
    (∀ (gs : List Graph) (pay : Value) (s : EState),
      (seedLayers (.many gs) pay s).q1.items =
        s.q1.items ++ (List.enumFrom 0 gs).map (fun q =>
          { idx := 0, stack := .mk (payloadAt pay q.1) .null .null none q.2,
            type := .pure, id := 0 })) := by
  refine ⟨?_, ?_, ?_, ?_⟩
  · intro t p d pay ups s
    rfl
  · intro g pay s
    rfl
  · intro g pay s
    rfl
  · intro gs pay s
    exact seedsMany_q1 gs 0 pay s

/-! ## The `stringRefcount` id generators -/

/-- One base-36 digit as JavaScript's `Number.prototype.toString(36)`
renders it: `0`–`9` then lowercase `a`–`z`. -/
def digitChar36 (d : Nat) : Char :=
  if d < 10 then Char.ofNat (48 + d) else Char.ofNat (87 + d)

/-- Base-36 digits of `n`, most significant first, with fuel (the source
relies on the JS runtime's conversion; `n` itself is enough fuel since the
quotient shrinks every round). -/
def toD36 : Nat → Nat → List Char
  | _, 0 => []
  | 0, _ + 1 => []
  | f + 1, n + 1 => toD36 f ((n + 1) / 36) ++ [digitChar36 ((n + 1) % 36)]

/-- JS `n.toString(36)` for a natural number. -/
def toString36 (n : Nat) : String :=
  if n = 0 then "0" else String.mk (toD36 n n)

def digitVal36 (c : Char) : Nat :=
  if c.toNat ≥ 97 then c.toNat - 87 else c.toNat - 48

def ofD36 (l : List Char) : Nat :=
  l.foldl (fun a c => a * 36 + digitVal36 c) 0

theorem digitVal_digitChar : ∀ d, d < 36 → digitVal36 (digitChar36 d) = d := by
  decide

theorem toD36_congr : ∀ (f f' n : Nat), n ≤ f → n ≤ f' →
    toD36 f n = toD36 f' n := by
  intro f
  induction f with
  | zero =>
    intro f' n hf _
    match n, f' with
    | 0, 0 => rfl
    | 0, _ + 1 => rfl
    | n + 1, _ => omega
  | succ f ih =>
    intro f' n hf hf'
    match n, f' with
    | 0, 0 => rfl
    | 0, _ + 1 => rfl
    | n + 1, 0 => omega
    | n + 1, f' + 1 =>
      rw [toD36, toD36, ih f' ((n + 1) / 36)
        (by have := Nat.div_lt_self (Nat.succ_pos n) (by omega : 1 < 36); omega)
        (by have := Nat.div_lt_self (Nat.succ_pos n) (by omega : 1 < 36); omega)]

theorem ofD36_append_digit (l : List Char) (c : Char) :
    ofD36 (l ++ [c]) = ofD36 l * 36 + digitVal36 c := by
  unfold ofD36
  rw [List.foldl_append]
  rfl

theorem ofD36_toD36 : ∀ (f n : Nat), n ≤ f → ofD36 (toD36 f n) = n := by
  intro f
  induction f with
  | zero =>
    intro n hf
    match n with
    | 0 => rfl
    | n + 1 => omega
  | succ f ih =>
    intro n hf
    match n with
    | 0 => rfl
    | n + 1 =>
      rw [toD36, ofD36_append_digit,
        ih ((n + 1) / 36)
          (by have := Nat.div_lt_self (Nat.succ_pos n) (by omega : 1 < 36)
              omega),
        digitVal_digitChar _ (Nat.mod_lt _ (by omega))]
      have := Nat.div_add_mod (n + 1) 36
      omega

theorem toString36_inj : ∀ (n m : Nat), toString36 n = toString36 m → n = m := by
  intro n m h
  simp only [toString36] at h
  by_cases hn : n = 0 <;> by_cases hm : m = 0
  · omega
  · exfalso
    rw [if_pos hn, if_neg hm] at h
    have h2 : ("0" : String).data = toD36 m m := congrArg String.data h
    have h3 : ofD36 (toD36 m m) = m := ofD36_toD36 m m (le_refl m)
    rw [← h2] at h3
    have h4 : ofD36 ("0" : String).data = 0 := by decide
    omega
  · exfalso
    rw [if_neg hn, if_pos hm] at h
    have h2 : ("0" : String).data = toD36 n n := congrArg String.data h.symm
    have h3 : ofD36 (toD36 n n) = n := ofD36_toD36 n n (le_refl n)
    rw [← h2] at h3
    have h4 : ofD36 ("0" : String).data = 0 := by decide
    omega
  · rw [if_neg hn, if_neg hm] at h
    have h2 : toD36 n n = toD36 m m := congrArg String.data h
    have h3 := ofD36_toD36 n n (le_refl n)
    have h4 := ofD36_toD36 m m (le_refl m)
    rw [h2] at h3
    omega

/-- The two independent counters created by the two `stringRefcount()`
calls. -/
structure RefCounters where
  unitC : Nat
  stepC : Nat

/-- Source `nextUnitID`: pre-increment the unit counter and render it in
base 36. -/
def nextUnitID (s : RefCounters) : String × RefCounters :=
  (toString36 (s.unitC + 1), { s with unitC := s.unitC + 1 })

/-- Source `nextStepID`: pre-increment the step counter and render it in
base 36. -/
def nextStepID (s : RefCounters) : String × RefCounters :=
  (toString36 (s.stepC + 1), { s with stepC := s.stepC + 1 })

/-- A call to one generator or the other. -/
inductive GenCall where
  | unitCall : GenCall
  | stepCall : GenCall

/-- Run an arbitrary interleaving of generator calls, tagging each output
with the generator that produced it. -/
def runGens : List GenCall → RefCounters → RefCounters × List (GenCall × String)
  | [], s => (s, [])
  | .unitCall :: cs, s =>
    let (out, s') := nextUnitID s
    let (s'', outs) := runGens cs s'
    (s'', (.unitCall, out) :: outs)
  | .stepCall :: cs, s =>
    let (out, s') := nextStepID s
    let (s'', outs) := runGens cs s'
    (s'', (.stepCall, out) :: outs)

def unitOuts (l : List (GenCall × String)) : List String :=
  l.filterMap (fun p => match p.1 with
    | .unitCall => some p.2
    | .stepCall => none)

def stepOuts (l : List (GenCall × String)) : List String :=
  l.filterMap (fun p => match p.1 with
    | .unitCall => none
    | .stepCall => some p.2)

def countUnit (cs : List GenCall) : Nat :=
  cs.countP (fun c => match c with | .unitCall => true | .stepCall => false)

def countStep (cs : List GenCall) : Nat :=
  cs.countP (fun c => match c with | .unitCall => false | .stepCall => true)

theorem runGens_outs : ∀ (cs : List GenCall) (s : RefCounters),
    unitOuts (runGens cs s).2 =
      (List.range (countUnit cs)).map (fun k => toString36 (s.unitC + k + 1)) ∧
    stepOuts (runGens cs s).2 =
      (List.range (countStep cs)).map (fun k => toString36 (s.stepC + k + 1)) := by
  intro cs
  induction cs with
  | nil =>
    intro s
    constructor <;> simp [runGens, unitOuts, stepOuts, countUnit, countStep]
  | cons c cs ih =>
    intro s
    match c with
    | .unitCall =>
      obtain ⟨ihu, ihs⟩ := ih { s with unitC := s.unitC + 1 }
      constructor
      · show toString36 (s.unitC + 1) ::
          unitOuts (runGens cs { s with unitC := s.unitC + 1 }).2 = _
        rw [ihu]
        have hcu : countUnit (GenCall.unitCall :: cs) = countUnit cs + 1 := by
          simp [countUnit, List.countP_cons]
        rw [hcu, List.range_succ_eq_map]
        simp only [List.map_cons, List.map_map]
        congr 1
        apply List.map_congr_left
        intro k _
        simp only [Function.comp_apply]
        congr 1
        omega
      · show stepOuts (runGens cs { s with unitC := s.unitC + 1 }).2 = _
        rw [ihs]
        have hcs : countStep (GenCall.unitCall :: cs) = countStep cs := by
          simp [countStep, List.countP_cons]
        rw [hcs]
    | .stepCall =>
      obtain ⟨ihu, ihs⟩ := ih { s with stepC := s.stepC + 1 }
      constructor
      · show unitOuts (runGens cs { s with stepC := s.stepC + 1 }).2 = _
        rw [ihu]
        have hcu : countUnit (GenCall.stepCall :: cs) = countUnit cs := by
          simp [countUnit, List.countP_cons]
        rw [hcu]
      · show toString36 (s.stepC + 1) ::
          stepOuts (runGens cs { s with stepC := s.stepC + 1 }).2 = _
        rw [ihs]
        have hcs : countStep (GenCall.stepCall :: cs) = countStep cs + 1 := by
          simp [countStep, List.countP_cons]
        rw [hcs, List.range_succ_eq_map]
        simp only [List.map_cons, List.map_map]
        congr 1
        apply List.map_congr_left
        intro k _
        simp only [Function.comp_apply]
        congr 1
        omega

/-- C9: `nextUnitID` and `nextStepID` are two independent monotonic
generators.  For any interleaving of calls starting from the fresh
counters, the unit-generator outputs are exactly the base-36 renderings of
1, 2, … counted over unit calls only (so the n-th call of a generator
returns the base-36 representation of n, unaffected by calls to the other
generator), and each generator's outputs are pairwise distinct. -/
theorem c9_refcount_generators (cs : List GenCall) :
    unitOuts (runGens cs ⟨0, 0⟩).2 =
      (List.range (countUnit cs)).map (fun k => toString36 (k + 1)) ∧
    stepOuts (runGens cs ⟨0, 0⟩).2 =
      (List.range (countStep cs)).map (fun k => toString36 (k + 1)) ∧
    (unitOuts (runGens cs ⟨0, 0⟩).2).Nodup ∧
    (stepOuts (runGens cs ⟨0, 0⟩).2).Nodup := by
  obtain ⟨hu, hs⟩ := runGens_outs cs ⟨0, 0⟩
  have hinj : Function.Injective (fun k => toString36 (k + 1)) := by
    intro a b hab
    have := toString36_inj (a + 1) (b + 1) hab
    omega
  have hu0 : unitOuts (runGens cs ⟨0, 0⟩).2 =
      (List.range (countUnit cs)).map (fun k => toString36 (k + 1)) := by
    rw [hu]
    apply List.map_congr_left
    intro k _
    show toString36 (0 + k + 1) = toString36 (k + 1)
    congr 1
    omega
  have hs0 : stepOuts (runGens cs ⟨0, 0⟩).2 =
      (List.range (countStep cs)).map (fun k => toString36 (k + 1)) := by
    rw [hs]
    apply List.map_congr_left
    intro k _
    show toString36 (0 + k + 1) = toString36 (k + 1)
    congr 1
    omega
  refine ⟨hu0, hs0, ?_, ?_⟩
  · rw [hu0]
    exact (List.nodup_range _).map hinj
  · rw [hs0]
    exact (List.nodup_range _).map hinj

/-! ## Barrier coalescing: the registry invariant -/

/-- Step-level well-formedness used by the coalescing invariant: a barrier
step carries a nonzero id (the id generators start at 1) and a heap-backed
priority (`barrier` steps are built with priority `barrier` or `sampler` —
the two classes backed by the shared heap). -/
def BStepOk : Step → Prop
  | .barrier id pr => id ≠ 0 ∧ (pr = .barrier ∨ pr = .sampler)
  | _ => True

/-- Hereditarily well-formed graphs: every step is `BStepOk` and every
child is again well-formed. -/
inductive GoodG : Graph → Prop where
  | intro : ∀ (seq : List Step) (next : List Graph) (sc : Value),
      (∀ st ∈ seq, BStepOk st) → (∀ g ∈ next, GoodG g) →
      GoodG (.mk seq next sc)

theorem GoodG.steps {g : Graph} (h : GoodG g) : ∀ st ∈ g.seq, BStepOk st := by
  cases h with
  | intro seq next sc hs hn => exact hs

theorem GoodG.children {g : Graph} (h : GoodG g) :
    ∀ c ∈ g.next, GoodG c := by
  cases h with
  | intro seq next sc hs hn => exact hn

/-- Number of queued layers carrying id `b`. -/
def cntQ (s : EState) (b : Nat) : Nat :=
  (allLayers s).countP (fun v => decide (v.id = b))

/-- A layer living in a FIFO bucket: default id `0`, a non-heap class, and
a well-formed node. -/
def GoodLayerF (v : Layer) : Prop :=
  v.id = 0 ∧ v.type ≠ .barrier ∧ v.type ≠ .sampler ∧ GoodG v.stack.node

/-- A layer living in the shared heap: it was pushed by the barrier branch,
so it carries the barrier step's nonzero id, the step's heap priority, and
resumes exactly at that barrier step. -/
def GoodLayerH (v : Layer) : Prop :=
  v.id ≠ 0 ∧ (v.type = .barrier ∨ v.type = .sampler) ∧
    GoodG v.stack.node ∧
    v.stack.node.seq.get? v.idx = some (.barrier v.id v.type)

/-- Structural part of the coalescing invariant. -/
def GoodQ (s : EState) : Prop :=
  (∀ v ∈ s.q0.items, GoodLayerF v) ∧ (∀ v ∈ s.q1.items, GoodLayerF v) ∧
  (∀ v ∈ s.q4.items, GoodLayerF v) ∧ s.q2.items = [] ∧ s.q3.items = [] ∧
  (∀ v ∈ s.heap.toList, GoodLayerH v)

/-- The barrier-registry invariant: the registry is duplicate-free, holds
only nonzero ids, and an id is registered iff exactly one queued layer
carries it (never more than one — "materialised at most once while
pending"). -/
def InvB (s : EState) : Prop :=
  s.barriers.Nodup ∧ (∀ b ∈ s.barriers, b ≠ 0) ∧
  ∀ b, b ≠ 0 → cntQ s b ≤ 1 ∧ (b ∈ s.barriers ↔ cntQ s b = 1)

def C1Inv (s : EState) : Prop := InvB s ∧ GoodQ s

theorem pushHeap_eq_barrier (i : Nat) (st : Stack) (id : Nat) (s : EState) :
    pushHeap i st .barrier id s =
      { s with heap := s.heap.merge (.node ⟨i, st, .barrier, id⟩ .nil .nil),
               q2 := { s.q2 with size := s.q2.size + 1 } } := rfl

theorem pushHeap_eq_sampler (i : Nat) (st : Stack) (id : Nat) (s : EState) :
    pushHeap i st .sampler id s =
      { s with heap := s.heap.merge (.node ⟨i, st, .sampler, id⟩ .nil .nil),
               q3 := { s.q3 with size := s.q3.size + 1 } } := rfl

theorem pushHeap_eq_child (i : Nat) (st : Stack) (id : Nat) (s : EState) :
    pushHeap i st .child id s =
      { s with q0 := { items := s.q0.items ++ [⟨i, st, .child, id⟩],
                       size := s.q0.size + 1 } } := rfl

theorem pushHeap_eq_pure (i : Nat) (st : Stack) (id : Nat) (s : EState) :
    pushHeap i st .pure id s =
      { s with q1 := { items := s.q1.items ++ [⟨i, st, .pure, id⟩],
                       size := s.q1.size + 1 } } := rfl

theorem pushHeap_eq_effect (i : Nat) (st : Stack) (id : Nat) (s : EState) :
    pushHeap i st .effect id s =
      { s with q4 := { items := s.q4.items ++ [⟨i, st, .effect, id⟩],
                       size := s.q4.size + 1 } } := rfl

theorem cntQ_pushHeap (i : Nat) (st : Stack) (ty : PriorityTag) (id : Nat)
    (s : EState) (b : Nat) :
    cntQ (pushHeap i st ty id s) b =
      cntQ s b + (if id = b then 1 else 0) := by
  match ty with
  | .barrier =>
    rw [pushHeap_eq_barrier]
    simp only [cntQ, allLayers, List.countP_append, countP_merge',
      Heap.toList, List.countP_cons, List.countP_nil]
    by_cases h : id = b <;> simp [h] <;> try omega
  | .sampler =>
    rw [pushHeap_eq_sampler]
    simp only [cntQ, allLayers, List.countP_append, countP_merge',
      Heap.toList, List.countP_cons, List.countP_nil]
    by_cases h : id = b <;> simp [h] <;> try omega
  | .child =>
    rw [pushHeap_eq_child]
    simp only [cntQ, allLayers, List.countP_append, List.countP_cons,
      List.countP_nil]
    by_cases h : id = b <;> simp [h] <;> try omega
  | .pure =>
    rw [pushHeap_eq_pure]
    simp only [cntQ, allLayers, List.countP_append, List.countP_cons,
      List.countP_nil]
    by_cases h : id = b <;> simp [h] <;> try omega
  | .effect =>
    rw [pushHeap_eq_effect]
    simp only [cntQ, allLayers, List.countP_append, List.countP_cons,
      List.countP_nil]
    by_cases h : id = b <;> simp [h] <;> try omega

theorem Stack.node_withValue (st : Stack) (v : Value) :
    (st.withValue v).node = st.node := by
  cases st; rfl

theorem Stack.node_withA (st : Stack) (v : Value) :
    (st.withA v).node = st.node := by
  cases st; rfl

theorem Stack.node_withB (st : Stack) (v : Value) :
    (st.withB v).node = st.node := by
  cases st; rfl

/-- Effect of a successful `deleteMin` on id counts and queue contents
(needs no size well-formedness): exactly the popped layer leaves the
structure, the registry is untouched, and the popped layer came from one of
the FIFO buckets or from the heap. -/
theorem deleteMin_effect {s : EState} {v : Layer} {s' : EState}
    (h : deleteMin s = some (v, s')) :
    (∀ b, cntQ s b = cntQ s' b + (if v.id = b then 1 else 0)) ∧
    s'.barriers = s.barriers ∧
    (∀ l ∈ s'.q0.items, l ∈ s.q0.items) ∧
    (∀ l ∈ s'.q1.items, l ∈ s.q1.items) ∧
    (∀ l ∈ s'.q4.items, l ∈ s.q4.items) ∧
    (∀ l ∈ s'.heap.toList, l ∈ s.heap.toList) ∧
    s'.q2.items = s.q2.items ∧ s'.q3.items = s.q3.items ∧
    ((v ∈ s.q0.items ∨ v ∈ s.q1.items ∨ v ∈ s.q4.items) ∨
      v ∈ s.heap.toList) := by
  unfold deleteMin at h
  by_cases h0 : s.q0.size > 0
  · rw [if_pos h0] at h
    match hit : s.q0.items with
    | [] => rw [hit] at h; cases h
    | w :: rest =>
      rw [hit] at h
      have hp := Option.some.inj h
      have hveq : v = w := (congrArg Prod.fst hp).symm
      have hseq : _ = s' := congrArg Prod.snd hp
      subst hveq
      subst hseq
      refine ⟨?_, rfl, fun l hl => List.mem_cons_of_mem _ hl,
        fun l hl => hl, fun l hl => hl, fun l hl => hl,
        rfl, rfl, Or.inl (Or.inl (List.mem_cons_self _ _))⟩
      intro b
      simp only [cntQ, allLayers, hit, List.countP_append, List.countP_cons]
      by_cases hb : v.id = b <;> simp [hb] <;> try omega
  · rw [if_neg h0] at h
    by_cases h1 : s.q1.size > 0
    · rw [if_pos h1] at h
      match hit : s.q1.items with
      | [] => rw [hit] at h; cases h
      | w :: rest =>
        rw [hit] at h
        have hp := Option.some.inj h
        have hveq : v = w := (congrArg Prod.fst hp).symm
        have hseq : _ = s' := congrArg Prod.snd hp
        subst hveq
        subst hseq
        refine ⟨?_, rfl, fun l hl => hl,
          fun l hl => List.mem_cons_of_mem _ hl, fun l hl => hl,
          fun l hl => hl, rfl, rfl,
          Or.inl (Or.inr (Or.inl (List.mem_cons_self _ _)))⟩
        intro b
        simp only [cntQ, allLayers, hit, List.countP_append,
          List.countP_cons]
        by_cases hb : v.id = b <;> simp [hb] <;> try omega
    · rw [if_neg h1] at h
      by_cases h2 : s.q2.size > 0
      · rw [if_pos h2] at h
        match hh : s.heap with
        | .nil => rw [hh] at h; cases h
        | .node w hl hr =>
          rw [hh] at h
          have hp := Option.some.inj h
          have hveq : v = w := (congrArg Prod.fst hp).symm
          have hseq : _ = s' := congrArg Prod.snd hp
          subst hveq
          subst hseq
          refine ⟨?_, rfl, fun l hlm => hlm, fun l hlm => hlm,
            fun l hlm => hlm, ?_, rfl, rfl,
            Or.inr (by simp [Heap.toList])⟩
          · intro b
            simp only [cntQ, allLayers, hh, Heap.toList, List.countP_append,
              List.countP_cons, countP_merge']
            by_cases hb : v.id = b <;> simp [hb] <;> try omega
          · intro l hlm
            rcases (mem_merge' hl hr l).1 hlm with hx | hx <;>
              · simp only [Heap.toList, List.mem_cons, List.mem_append]
                tauto
      · rw [if_neg h2] at h
        by_cases h3 : s.q3.size > 0
        · rw [if_pos h3] at h
          match hh : s.heap with
          | .nil => rw [hh] at h; cases h
          | .node w hl hr =>
            rw [hh] at h
            have hp := Option.some.inj h
            have hveq : v = w := (congrArg Prod.fst hp).symm
            have hseq : _ = s' := congrArg Prod.snd hp
            subst hveq
            subst hseq
            refine ⟨?_, rfl, fun l hlm => hlm, fun l hlm => hlm,
              fun l hlm => hlm, ?_, rfl, rfl,
              Or.inr (by simp [Heap.toList])⟩
            · intro b
              simp only [cntQ, allLayers, hh, Heap.toList, List.countP_append,
                List.countP_cons, countP_merge']
              by_cases hb : v.id = b <;> simp [hb] <;> try omega
            · intro l hlm
              rcases (mem_merge' hl hr l).1 hlm with hx | hx <;>
                · simp only [Heap.toList, List.mem_cons, List.mem_append]
                  tauto
        · rw [if_neg h3] at h
          by_cases h4 : s.q4.size > 0
          · rw [if_pos h4] at h
            match hit : s.q4.items with
            | [] => rw [hit] at h; cases h
            | w :: rest =>
              rw [hit] at h
              have hp := Option.some.inj h
              have hveq : v = w := (congrArg Prod.fst hp).symm
              have hseq : _ = s' := congrArg Prod.snd hp
              subst hveq
              subst hseq
              refine ⟨?_, rfl, fun l hl => hl, fun l hl => hl,
                fun l hl => List.mem_cons_of_mem _ hl,
                fun l hl => hl, rfl, rfl,
                Or.inl (Or.inr (Or.inr (List.mem_cons_self _ _)))⟩
              intro b
              simp only [cntQ, allLayers, hit, List.countP_append,
                List.countP_cons]
              by_cases hb : v.id = b <;> simp [hb] <;> try omega
          · rw [if_neg h4] at h; cases h

theorem tryRun_C1Inv (loc : Local) (fn : FnE) (stack : Stack) (s : EState)
    (h : C1Inv s) : C1Inv (tryRun loc fn stack s).2.2 := by
  unfold tryRun
  cases hev : evalFn fn stack.value loc.scope stack with
  | ok v => exact h
  | error e => exact h

/-- Registering a fresh barrier id and materialising its layer preserves
the coalescing invariant. -/
theorem C1Inv_register {s : EState} (h : C1Inv s) (id : Nat) (hid : id ≠ 0)
    (hmem : id ∉ s.barriers) (stepn : Nat) (stack : Stack) (pr : PriorityTag)
    (hpr : pr = .barrier ∨ pr = .sampler) (hstack : GoodG stack.node)
    (hseq : stack.node.seq.get? stepn = some (.barrier id pr)) :
    C1Inv (pushHeap stepn stack pr id
      { s with barriers := id :: s.barriers,
               events := s.events ++ [.barrierMat id] }) := by
  have hbar : (pushHeap stepn stack pr id
      { s with barriers := id :: s.barriers,
               events := s.events ++ [.barrierMat id] }).barriers =
      id :: s.barriers := by
    rcases hpr with rfl | rfl <;> rfl
  have hcnt : ∀ b, cntQ (pushHeap stepn stack pr id
      { s with barriers := id :: s.barriers,
               events := s.events ++ [.barrierMat id] }) b =
      cntQ s b + (if id = b then 1 else 0) := by
    intro b
    rw [cntQ_pushHeap]
    rfl
  obtain ⟨⟨hnd, hnz, hmain⟩, hgq⟩ := h
  refine ⟨⟨?_, ?_, ?_⟩, ?_⟩
  · rw [hbar]
    exact List.nodup_cons.2 ⟨hmem, hnd⟩
  · rw [hbar]
    intro b hb
    rcases List.mem_cons.1 hb with rfl | hb
    · exact hid
    · exact hnz b hb
  · intro b hb
    rw [hcnt b, hbar]
    obtain ⟨hle, hiff⟩ := hmain b hb
    by_cases hbid : id = b
    · subst hbid
      have hc0 : cntQ s id = 0 := by
        rcases Nat.lt_or_ge (cntQ s id) 1 with hlt | hge
        · omega
        · exfalso
          exact hmem (hiff.2 (by omega))
      rw [if_pos rfl, hc0]
      exact ⟨by omega, by simp⟩
    · rw [if_neg hbid]
      constructor
      · omega
      · rw [List.mem_cons]
        constructor
        · rintro (rfl | hbm)
          · exact absurd rfl hbid
          · have := hiff.1 hbm
            omega
        · intro hc
          exact Or.inr (hiff.2 (by omega))
  · obtain ⟨hg0, hg1, hg4, hg2, hg3, hgh⟩ := hgq
    rcases hpr with rfl | rfl
    · rw [pushHeap_eq_barrier]
      refine ⟨hg0, hg1, hg4, hg2, hg3, ?_⟩
      intro v hv
      rcases (mem_merge' _ _ v).1 hv with hv | hv
      · exact hgh v hv
      · simp only [Heap.toList, List.mem_singleton, List.append_nil,
          List.nil_append, List.mem_cons, List.not_mem_nil, or_false] at hv
        subst hv
        exact ⟨hid, Or.inl rfl, hstack, hseq⟩
    · rw [pushHeap_eq_sampler]
      refine ⟨hg0, hg1, hg4, hg2, hg3, ?_⟩
      intro v hv
      rcases (mem_merge' _ _ v).1 hv with hv | hv
      · exact hgh v hv
      · simp only [Heap.toList, List.mem_singleton, List.append_nil,
          List.nil_append, List.mem_cons, List.not_mem_nil, or_false] at hv
        subst hv
        exact ⟨hid, Or.inr rfl, hstack, hseq⟩

/-- Pushing a `run`-deferred layer (class `effect`, id 0) preserves the
invariant. -/
theorem C1Inv_pushEffect {s : EState} (h : C1Inv s) (stepn : Nat)
    (stack : Stack) (hstack : GoodG stack.node) :
    C1Inv (pushHeap stepn stack .effect 0 s) := by
  obtain ⟨⟨hnd, hnz, hmain⟩, hg0, hg1, hg4, hg2, hg3, hgh⟩ := h
  have hcnt : ∀ b, b ≠ 0 →
      cntQ (pushHeap stepn stack .effect 0 s) b = cntQ s b := by
    intro b hb
    rw [cntQ_pushHeap, if_neg (by omega)]
    omega
  constructor
  · refine ⟨hnd, hnz, ?_⟩
    intro b hb
    rw [hcnt b hb]
    exact hmain b hb
  · rw [pushHeap_eq_effect]
    refine ⟨hg0, hg1, ?_, hg2, hg3, hgh⟩
    intro v hv
    rcases List.mem_append.1 hv with hv | hv
    · exact hg4 v hv
    · rw [List.mem_singleton.1 hv]
      exact ⟨rfl, fun hx => PriorityTag.noConfusion hx,
        fun hx => PriorityTag.noConfusion hx, hstack⟩

/-- Pushing a `child` fan-out layer preserves the invariant. -/
theorem C1Inv_pushChild {s : EState} (h : C1Inv s) (c : Graph)
    (parent : Option Stack) (value : Value) (hc : GoodG c) :
    C1Inv (pushFirstHeapItem .child c parent value s) := by
  obtain ⟨⟨hnd, hnz, hmain⟩, hg0, hg1, hg4, hg2, hg3, hgh⟩ := h
  have hcnt : ∀ b, b ≠ 0 →
      cntQ (pushFirstHeapItem .child c parent value s) b = cntQ s b := by
    intro b hb
    unfold pushFirstHeapItem
    rw [cntQ_pushHeap, if_neg (by omega)]
    omega
  constructor
  · refine ⟨hnd, hnz, ?_⟩
    intro b hb
    rw [hcnt b hb]
    exact hmain b hb
  · unfold pushFirstHeapItem
    rw [pushHeap_eq_child]
    refine ⟨?_, hg1, hg4, hg2, hg3, hgh⟩
    intro v hv
    rcases List.mem_append.1 hv with hv | hv
    · exact hg0 v hv
    · rw [List.mem_singleton.1 hv]
      exact ⟨rfl, fun hx => PriorityTag.noConfusion hx,
        fun hx => PriorityTag.noConfusion hx, hc⟩

/-- Fan-out to a well-formed node's children preserves the invariant. -/
theorem C1Inv_fanout (g : Graph) (hg : GoodG g) (stack : Stack) (s : EState)
    (h : C1Inv s) : C1Inv (fanout g stack s) := by
  unfold fanout
  have : ∀ (cs : List Graph), (∀ c ∈ cs, GoodG c) → ∀ (s : EState),
      C1Inv s → C1Inv (cs.foldl (fun acc c =>
        pushFirstHeapItem .child c (some stack) stack.value acc) s) := by
    intro cs
    induction cs with
    | nil => intro _ s hs; exact hs
    | cons c cs ih =>
      intro hcs s hs
      rw [List.foldl_cons]
      exact ih (fun c' hc' => hcs c' (List.mem_cons_of_mem _ hc'))
        _ (C1Inv_pushChild hs c (some stack) stack.value
            (hcs c (List.mem_cons_self _ _)))
  exact this g.next hg.children s h

/-- The interpreter's step loop preserves the coalescing invariant, for a
traversal that holds no live registration (a FIFO-class layer, or a heap
layer that has already passed its barrier, so its cursor is strictly past
the layer's starting index). -/
theorem runSteps_inv (idx : Nat) (ty : PriorityTag) (g : Graph)
    (hg : GoodG g) :
    ∀ (rest : List Step) (stepn : Nat) (stack : Stack) (loc : Local)
      (s : EState),
    C1Inv s → stack.node = g →
    (∀ k, rest.get? k = g.seq.get? (stepn + k)) →
    ((ty = .barrier ∨ ty = .sampler) → idx < stepn) →
    C1Inv (runSteps idx ty rest stepn stack loc s).1 := by
  intro rest
  induction rest with
  | nil =>
    intro stepn stack loc s hinv _ _ _
    exact hinv
  | cons step rest ih =>
    intro stepn stack loc s hinv hnode hrest hidx
    have hstep : g.seq.get? stepn = some step := by
      have h0 := hrest 0
      rw [Nat.add_zero] at h0
      exact h0.symm
    have hbok : BStepOk step := hg.steps step (List.get?_mem hstep)
    have hrest' : ∀ k, rest.get? k = g.seq.get? (stepn + 1 + k) := by
      intro k
      have h' := hrest (k + 1)
      simp only [List.get?_cons_succ] at h'
      rw [h']
      congr 1
      omega
    have hidx' : (ty = .barrier ∨ ty = .sampler) → idx < stepn + 1 :=
      fun h => Nat.lt_succ_of_lt (hidx h)
    have hcont : ∀ (stack' : Stack) (loc' : Local) (s' : EState),
        C1Inv s' → stack'.node = g →
        C1Inv ((if loc'.fail || loc'.skip then (s', some (stack', true))
          else runSteps idx ty rest (stepn + 1) stack' loc' s').1) := by
      intro stack' loc' s' hi hn
      by_cases hstop : (loc'.fail || loc'.skip) = true
      · rw [if_pos hstop]
        exact hi
      · rw [if_neg hstop]
        exact ih (stepn + 1) stack' loc' s' hi hn hrest' hidx'
    match step, hbok with
    | .barrier id pr, hbok =>
      obtain ⟨hid, hpr⟩ := hbok
      have hcond : stepn ≠ idx ∨ ty ≠ pr := by
        by_cases hty : ty = .barrier ∨ ty = .sampler
        · left
          have := hidx hty
          omega
        · right
          intro hcontra
          rw [hcontra] at hty
          exact hty hpr
      rw [runSteps]
      simp only [execStep]
      rw [if_pos hcond]
      by_cases hmem : id ∈ s.barriers
      · rw [if_pos hmem]
        exact hinv
      · rw [if_neg hmem]
        exact C1Inv_register hinv id hid hmem stepn stack pr hpr
          (by rw [hnode]; exact hg) (by rw [hnode]; exact hstep)
    | .mov src dst, _ =>
      rw [runSteps]
      simp only [execStep]
      cases dst with
      | stack =>
        exact hcont _ loc s hinv
          (by rw [Stack.node_withValue]; exact hnode)
      | a =>
        exact hcont _ loc s hinv (by rw [Stack.node_withA]; exact hnode)
      | b =>
        exact hcont _ loc s hinv (by rw [Stack.node_withB]; exact hnode)
      | store r => exact hcont stack loc (writeRef s r _) hinv hnode
    | .check ck, _ =>
      rw [runSteps]
      simp only [execStep]
      cases ck with
      | defined =>
        exact hcont stack { loc with skip := jsStrictEq stack.value .undef }
          s hinv hnode
      | changed r =>
        exact hcont stack
          { loc with skip := jsStrictEq stack.value (readRef s r) } s hinv
          hnode
    | .filter fn, _ =>
      rw [runSteps]
      simp only [execStep]
      rcases htr : tryRun loc fn stack s with ⟨v2, loc2, s2⟩
      have hi2 := tryRun_C1Inv loc fn stack s hinv
      rw [htr] at hi2
      simp only [htr]
      exact hcont stack { loc2 with skip := !jsTruthy v2 } s2 hi2 hnode
    | .run fn, _ =>
      rw [runSteps]
      simp only [execStep]
      by_cases hrun : stepn ≠ idx ∨ ty ≠ .effect
      · rw [if_pos hrun]
        exact C1Inv_pushEffect hinv stepn stack (by rw [hnode]; exact hg)
      · rw [if_neg hrun]
        rcases htr : tryRun loc fn stack s with ⟨v2, loc2, s2⟩
        have hi2 := tryRun_C1Inv loc fn stack s hinv
        rw [htr] at hi2
        simp only [htr]
        exact hcont (stack.withValue v2) loc2 s2 hi2
          (by rw [Stack.node_withValue]; exact hnode)
    | .compute fn, _ =>
      rw [runSteps]
      simp only [execStep]
      rcases htr : tryRun loc fn stack s with ⟨v2, loc2, s2⟩
      have hi2 := tryRun_C1Inv loc fn stack s hinv
      rw [htr] at hi2
      simp only [htr]
      exact hcont (stack.withValue v2) loc2 s2 hi2
        (by rw [Stack.node_withValue]; exact hnode)

/-- A heap layer redequeued at matching cursor and priority passes its
barrier: the id is deregistered and evaluation continues past the step. -/
theorem runSteps_barrier_pass (idx : Nat) (ty : PriorityTag) (id : Nat)
    (rest : List Step) (stack : Stack) (sc : Value) (s : EState) :
    runSteps idx ty (Step.barrier id ty :: rest) idx stack
      ⟨false, false, "", sc⟩ s =
      runSteps idx ty rest (idx + 1) stack ⟨false, false, "", sc⟩
        { s with barriers := s.barriers.erase id } := by
  rw [runSteps]
  simp only [execStep]
  rw [if_neg (by simp)]
  rfl

/-- Processing one dequeued layer preserves the coalescing invariant. -/
theorem processLayer_inv {S : EState} {v : Layer} {s : EState}
    (hS : C1Inv S) (hd : deleteMin S = some (v, s)) :
    C1Inv (processLayer v s) := by
  obtain ⟨hcnt, hbar, hs0, hs1, hs4, hsh, hs2, hs3, horigin⟩ :=
    deleteMin_effect hd
  obtain ⟨⟨hnd, hnz, hmain⟩, hg0, hg1, hg4, hg2, hg3, hgh⟩ := hS
  have hGoodQs : GoodQ s :=
    ⟨fun l hl => hg0 l (hs0 l hl), fun l hl => hg1 l (hs1 l hl),
     fun l hl => hg4 l (hs4 l hl), by rw [hs2]; exact hg2,
     by rw [hs3]; exact hg3, fun l hl => hgh l (hsh l hl)⟩
  by_cases hvid : v.id = 0
  · -- a FIFO-class layer: counts and registry carry over unchanged
    have hinv : C1Inv s := by
      refine ⟨⟨by rw [hbar]; exact hnd, by rw [hbar]; exact hnz, ?_⟩,
        hGoodQs⟩
      intro b hb
      have hc := hcnt b
      rw [if_neg (by omega)] at hc
      obtain ⟨hle, hiff⟩ := hmain b hb
      rw [hbar]
      refine ⟨by omega, ?_⟩
      rw [show cntQ s b = cntQ S b by omega]
      exact hiff
    have hvf : GoodLayerF v := by
      rcases horigin with (hv | hv | hv) | hv
      · exact hg0 v hv
      · exact hg1 v hv
      · exact hg4 v hv
      · exact absurd hvid (hgh v hv).1
    obtain ⟨_, hvb, hvs, hvg⟩ := hvf
    unfold processLayer
    dsimp only
    have hrun := runSteps_inv v.idx v.type v.stack.node hvg
      (v.stack.node.seq.drop v.idx) v.idx v.stack
      ⟨false, false, "", v.stack.node.scope⟩ s hinv rfl
      (fun k => List.get?_drop _ _ _)
      (fun hty => absurd hty (not_or.2 ⟨hvb, hvs⟩))
    rcases hrs : runSteps v.idx v.type (v.stack.node.seq.drop v.idx) v.idx
        v.stack ⟨false, false, "", v.stack.node.scope⟩ s with ⟨s', out⟩
    rw [hrs] at hrun
    match out with
    | none => exact hrun
    | some (stack', stop) =>
      show C1Inv (if stop = true then s' else fanout v.stack.node stack' s')
      by_cases hstop : stop = true
      · rw [if_pos hstop]
        exact hrun
      · rw [if_neg hstop]
        exact C1Inv_fanout v.stack.node hvg stack' s' hrun
  · -- a heap layer resuming at its own barrier step
    have hvh : GoodLayerH v := by
      rcases horigin with (hv | hv | hv) | hv
      · exact absurd (hg0 v hv).1 hvid
      · exact absurd (hg1 v hv).1 hvid
      · exact absurd (hg4 v hv).1 hvid
      · exact hgh v hv
    obtain ⟨hvid', hvty, hvg, hvseq⟩ := hvh
    have hcv := hcnt v.id
    rw [if_pos rfl] at hcv
    obtain ⟨hSle, hSiff⟩ := hmain v.id hvid
    have hcs0 : cntQ s v.id = 0 := by omega
    have hSmem : v.id ∈ S.barriers := hSiff.2 (by omega)
    obtain ⟨hlen, hget⟩ := List.get?_eq_some.1 hvseq
    have hdrop : v.stack.node.seq.drop v.idx =
        Step.barrier v.id v.type :: v.stack.node.seq.drop (v.idx + 1) := by
      rw [List.drop_eq_get_cons hlen, hget]
    -- the state with the registration consumed satisfies the invariant
    have hinv2 : C1Inv { s with barriers := s.barriers.erase v.id } := by
      refine ⟨⟨?_, ?_, ?_⟩, hGoodQs⟩
      · show (s.barriers.erase v.id).Nodup
        rw [hbar]
        exact List.Nodup.erase _ hnd
      · intro b hb
        rw [hbar] at hb
        exact hnz b (List.mem_of_mem_erase hb)
      · intro b hb
        have hc := hcnt b
        have hcs : cntQ { s with barriers := s.barriers.erase v.id } b =
            cntQ s b := rfl
        rw [hcs]
        by_cases hbv : b = v.id
        · subst hbv
          refine ⟨by omega, ?_⟩
          constructor
          · intro hm
            exfalso
            rw [hbar] at hm
            exact ((List.Nodup.mem_erase_iff hnd).1 hm).1 rfl
          · intro hc1
            omega
        · rw [if_neg (by omega)] at hc
          obtain ⟨hle, hiff⟩ := hmain b hb
          refine ⟨by omega, ?_⟩
          show b ∈ s.barriers.erase v.id ↔ _
          rw [hbar, List.Nodup.mem_erase_iff hnd]
          constructor
          · intro hm
            have := hiff.1 hm.2
            omega
          · intro hc1
            exact ⟨hbv, hiff.2 (by omega)⟩
    unfold processLayer
    dsimp only
    rw [hdrop, runSteps_barrier_pass]
    have hrun := runSteps_inv v.idx v.type v.stack.node hvg
      (v.stack.node.seq.drop (v.idx + 1)) (v.idx + 1) v.stack
      ⟨false, false, "", v.stack.node.scope⟩
      { s with barriers := s.barriers.erase v.id } hinv2 rfl
      (fun k => List.get?_drop _ _ _)
      (fun _ => Nat.lt_succ_self _)
    rcases hrs : runSteps v.idx v.type (v.stack.node.seq.drop (v.idx + 1))
        (v.idx + 1) v.stack ⟨false, false, "", v.stack.node.scope⟩
        { s with barriers := s.barriers.erase v.id } with ⟨s', out⟩
    rw [hrs] at hrun
    match out with
    | none => exact hrun
    | some (stack', stop) =>
      show C1Inv (if stop = true then s' else fanout v.stack.node stack' s')
      by_cases hstop : stop = true
      · rw [if_pos hstop]
        exact hrun
      · rw [if_neg hstop]
        exact C1Inv_fanout v.stack.node hvg stack' s' hrun

/-- Every state reached by the drain loop from an invariant state satisfies
the coalescing invariant. -/
theorem execLoop_inv : ∀ (k : Nat) (s : EState), C1Inv s →
    C1Inv (execLoop k s) := by
  intro k
  induction k with
  | zero => intro s h; exact h
  | succ k ih =>
    intro s h
    rw [execLoop]
    rcases hd : deleteMin s with _ | ⟨v, s'⟩
    · exact h
    · exact ih _ (processLayer_inv h hd)

/-- C1 (amended): during an `exec` drain from an invariant-satisfying state
(well-formed graphs, registry consistent), a layer for barrier id `b` is
materialised only while `b` is unregistered, so at every point of the drain
at most one queued layer carries `b`, and `b` is registered exactly when
such a layer is pending.  A combine-style node therefore fires at most once
per wave of upstream deliveries arriving while its barrier layer is
pending; it can fire again within the same drain only if a later wave
(e.g. through an effect-deferred path) arrives after the barrier has
already fired — the original "at most once per drain" is refuted by the
counterexample. -/
theorem c1_barrier_pending_unique (s : EState) (h : C1Inv s) (k : Nat) :
    C1Inv (execLoop k s) ∧
    (∀ b, b ≠ 0 → cntQ (execLoop k s) b ≤ 1) ∧
    (∀ b, b ≠ 0 →
      (b ∈ (execLoop k s).barriers ↔ cntQ (execLoop k s) b = 1)) := by
  have hinv := execLoop_inv k s h
  exact ⟨hinv, fun b hb => (hinv.1.2.2 b hb).1, fun b hb => (hinv.1.2.2 b hb).2⟩

theorem c1Inv_empty : C1Inv emptyState := by
  refine ⟨⟨List.nodup_nil, ?_, ?_⟩, ?_, ?_, ?_, rfl, rfl, ?_⟩
  · intro b hb
    cases hb
  · intro b _
    have hc : cntQ emptyState b = 0 := rfl
    refine ⟨by omega, ?_⟩
    constructor
    · intro h
      cases h
    · intro h
      rw [hc] at h
      cases h
  · intro v hv
    cases hv
  · intro v hv
    cases hv
  · intro v hv
    cases hv
  · intro v hv
    cases hv

theorem c1_barrier_pending_unique_witness :
    C1Inv emptyState ∧
    (C1Inv (execLoop 4 emptyState) ∧
     (∀ b, b ≠ 0 → cntQ (execLoop 4 emptyState) b ≤ 1) ∧
     (∀ b, b ≠ 0 →
       (b ∈ (execLoop 4 emptyState).barriers ↔
         cntQ (execLoop 4 emptyState) b = 1))) :=
  ⟨c1Inv_empty, c1_barrier_pending_unique emptyState c1Inv_empty 4⟩

/-- The combine-style node of the C1 counterexample: its first step is a
`barrier`-priority barrier with id 7; each firing then increments ref 5. -/
def c1C : Graph :=
  .mk [.barrier 7 .barrier, .mov (.store 5) .stack, .compute (.addInt 1),
       .mov .stack (.store 5)] [] .null

/-- An effect-deferred intermediate node feeding the combine node. -/
def c1A : Graph := .mk [.run .arg] [c1C] .null

/-- The source node: one direct path to the combine node and one through
the effect-deferred node. -/
def c1S : Graph := .mk [] [c1C, c1A] .null

def c1Start : EState := { emptyState with refs := [(5, .int 0)] }

/-- C1 counterexample: in a single `exec` drain started by one `launch`,
barrier id 7 is materialised (pushed into the queue) twice — the ghost
`barrierMat` marker is recorded at exactly the source's push site — and the
combine-style node fires twice (its ref counter ends at 2), because the
second wave arrives through the effect-deferred path after the barrier has
already fired.  This refutes "materialised at most once per drain" and
"fires exactly once per propagation even if N upstream paths deliver
layers to it". -/
theorem c1_coalescing_counterexample :
    ((launch 30 (.unit (.one c1S)) (.int 100) false c1Start).events.countP
      (fun e => match e with | .barrierMat 7 => true | _ => false)) = 2 ∧
    readRef (launch 30 (.unit (.one c1S)) (.int 100) false c1Start) 5 =
      Value.int 2 ∧
    (launch 30 (.unit (.one c1S)) (.int 100) false c1Start).barriers = [] :=
  ⟨rfl, rfl, rfl⟩

end Effector
